import Mathlib

/-!
Verification development for the gopherd/viber scheduler core.

The definitions below are a shallow embedding of the TypeScript sources:

  * src/Handler.ts   - Handler, Timer, the generic binary Heap over a
    pluggable Container, the JS-array backed container, and the
    id-indexed Map container;
  * the Director module - the scheduleTimers advance loop;
  * src/Action.ts    - ActionManager with its per-target records,
    ActionInterval timing, Sequence, and the move/rotate/scale/bezier
    leaf actions with their reverse implementations.

Numbers are modelled as rationals, JS array cells as Option values
(a cell holding undefined is none), JS objects acting as dictionaries
as association lists.  While loops of the source are modelled either
with explicit fuel (kept kernel-computable) or with internally derived
sufficient fuel; every theorem that depends on a loop finishing carries
the fuel bound as an explicit hypothesis or uses a proven-sufficient
amount.
-/

namespace Viber

/-- FLT_EPSILON constant from src/Action.ts (0.0000001192092896). -/
def FLT_EPSILON : ℚ := 1192092896 / 10 ^ 16

/-! ## JS array primitives

A JS array is a list of cells; a cell can hold undefined (none).
Reading out of range gives undefined; writing at index = length appends;
writing at a negative index stores an object property that the heap code
never reads back with an observable effect (the only such write, in
pop on an empty heap, stores undefined which is the value a fresh read
would give anyway), so it is modelled as a no-op.  Writing past the
length never happens in the heap code. -/

/-- Read cell i of a JS array (undefined when out of range). -/
def jsRead {T : Type} (l : List (Option T)) (i : Int) : Option T :=
  if h : 0 ≤ i ∧ i.toNat < l.length then l.get ⟨i.toNat, h.2⟩ else none

/-- Write cell i of a JS array: in range replaces, at index = length
appends, otherwise (negative index property) leaves the array alone. -/
def jsWrite {T : Type} (l : List (Option T)) (i : Int) (v : Option T) : List (Option T) :=
  if 0 ≤ i ∧ i.toNat < l.length then l.set i.toNat v
  else if i = (l.length : Int) then l ++ [v]
  else l

/-- The three-assignment swap of Array.swap in src/Handler.ts:
tmp = elems[i]; elems[i] = elems[j]; elems[j] = tmp. -/
def jsSwap {T : Type} (l : List (Option T)) (i j : Int) : List (Option T) :=
  let tmp := jsRead l i
  let vj := jsRead l j
  let l1 := jsWrite l i vj
  jsWrite l1 j tmp

/-! ## The Container interface and the generic Heap (src/Handler.ts) -/

/-- The Container interface used by Heap: size/get/swap/less/pushBack/popBack.
swap takes Int indices because Heap.pop calls swap(0, size-1) even when
size is 0. -/
structure ContOps (σ : Type) (T : Type) where
  size : σ → Nat
  get : σ → Int → Option T
  swap : σ → Int → Int → σ
  less : σ → Nat → Nat → Bool
  pushBack : σ → T → σ
  popBack : σ → σ × Option T

/-- Heap._up sift loop.  Fuel bounds the iteration count; callers pass
the container size, which is sufficient since j strictly decreases. -/
def hUp {σ T : Type} (c : ContOps σ T) : Nat → σ → Nat → σ
  | 0, s, _ => s
  | fuel + 1, s, j =>
    let i := if j = 0 then 0 else (j - 1) / 2
    if i = j then s
    else if c.less s j i then hUp c fuel (c.swap s i j) i
    else s

/-- Heap._down sift loop, returning the final index i.  The source's
boolean result is i > i0.  Fuel bounds iterations; callers pass
size + 1 which is sufficient since i strictly increases below n. -/
def hDownLoop {σ T : Type} (c : ContOps σ T) : Nat → σ → Nat → Int → σ × Nat
  | 0, s, i, _ => (s, i)
  | fuel + 1, s, i, n =>
    let j1 := 2 * i + 1
    if (j1 : Int) ≥ n then (s, i)
    else
      let j := if decide ((j1 + 1 : Int) < n) && c.less s (j1 + 1) j1 then j1 + 1 else j1
      if c.less s j i then hDownLoop c fuel (c.swap s i j) j n
      else (s, i)

/-- Heap._down: sift i down within the first n elements, true when i moved. -/
def hDown {σ T : Type} (c : ContOps σ T) (fuel : Nat) (s : σ) (i0 : Nat) (n : Int) : σ × Bool :=
  let r := hDownLoop c fuel s i0 n
  (r.1, decide (i0 < r.2))

/-- Heap.push: append then sift up from the last slot. -/
def hPush {σ T : Type} (c : ContOps σ T) (s : σ) (x : T) : σ :=
  let s1 := c.pushBack s x
  hUp c (c.size s1) s1 (c.size s1 - 1)

/-- Heap.pop: swap root with the last slot, sift the root down within
size-1 elements, then pop the tail.  Note n = size - 1 is computed as
an Int, so on an empty heap swap(0, -1) really happens. -/
def hPop {σ T : Type} (c : ContOps σ T) (s : σ) : σ × Option T :=
  let n : Int := (c.size s : Int) - 1
  let s1 := c.swap s 0 n
  let r := hDownLoop c (c.size s + 1) s1 0 n
  c.popBack r.1

/-- Heap.remove(i): swap i with the tail slot, re-heapify down or up,
then pop the tail. -/
def hRemove {σ T : Type} (c : ContOps σ T) (s : σ) (i : Nat) : σ × Option T :=
  let n : Int := (c.size s : Int) - 1
  if n ≠ (i : Int) then
    let s1 := c.swap s i n
    let r := hDown c (c.size s + 1) s1 i n
    let s2 := if r.2 then r.1 else hUp c (c.size s) r.1 i
    c.popBack s2
  else
    c.popBack s

/-! ## The Array container (class Array in src/Handler.ts) -/

/-- Array container ops over a bare JS array with an explicit lessFn.
The lessFn receives the raw cell contents, as in the source. -/
def arrayOps (T : Type) (lessFn : Option T → Option T → Bool) :
    ContOps (List (Option T)) T where
  size s := s.length
  get s i := jsRead s i
  swap s i j := jsSwap s i j
  less s i j := lessFn (jsRead s i) (jsRead s j)
  pushBack s x := s ++ [some x]
  popBack s :=
    match s.getLast? with
    | none => (s, none)
    | some e => (s.dropLast, e)

/-! ## The Map container (class Map in src/Handler.ts)

Elements are Identifiable: they expose a mutable id.  The container
keeps an id -> index dictionary (a JS object, modelled as an
association list). -/

/-- State of the Map container: the backing JS array plus the
id -> index dictionary. -/
structure MapState (T : Type) where
  elems : List (Option T)
  indices : List (Int × Nat)
deriving DecidableEq

/-- Store key k -> v in a JS-object dictionary. -/
def setAssoc (l : List (Int × Nat)) (k : Int) (v : Nat) : List (Int × Nat) :=
  if l.any (fun p => p.1 == k) then l.map (fun p => if p.1 == k then (k, v) else p)
  else l ++ [(k, v)]

/-- Delete key k from a JS-object dictionary. -/
def delAssoc (l : List (Int × Nat)) (k : Int) : List (Int × Nat) :=
  l.filter (fun p => p.1 != k)

/-- Look key k up in a JS-object dictionary. -/
def getAssoc (l : List (Int × Nat)) (k : Int) : Option Nat :=
  (l.find? (fun p => p.1 == k)).map (fun p => p.2)

/-- The assignment elems[i].id = i of Map.swap: writes the id field of
the element currently in cell i.  (On an empty cell the JS original
would throw; the heap never reaches that with an observable effect.) -/
def idWriteAt {T : Type} (setId : T → Int → T) (l : List (Option T)) (i : Int) :
    List (Option T) :=
  if h : 0 ≤ i ∧ i.toNat < l.length then
    match l.get ⟨i.toNat, h.2⟩ with
    | none => l
    | some e => l.set i.toNat (some (setId e i))
  else l

/-- Map container ops.  Crucially, swap performs the plain array swap and
then overwrites both elements' id fields with their new indices - it does
NOT touch the indices dictionary. -/
def mapOps {T : Type} (getId : T → Int) (setId : T → Int → T)
    (lessFn : Option T → Option T → Bool) : ContOps (MapState T) T where
  size s := s.elems.length
  get s i := jsRead s.elems i
  swap s i j :=
    let e1 := jsSwap s.elems i j
    let e2 := idWriteAt setId e1 i
    let e3 := idWriteAt setId e2 j
    { s with elems := e3 }
  less s i j := lessFn (jsRead s.elems i) (jsRead s.elems j)
  pushBack s x :=
    { elems := s.elems ++ [some x]
      indices := setAssoc s.indices (getId x) s.elems.length }
  popBack s :=
    match s.elems.getLast? with
    | none => (s, none)
    | some none => ({ s with elems := s.elems.dropLast }, none)
    | some (some e) =>
      ({ elems := s.elems.dropLast, indices := delAssoc s.indices (getId e) }, some e)

/-- Map.indexof: dictionary hit gives the stored index, miss gives -1. -/
def mapIndexof {T : Type} (s : MapState T) (id : Int) : Int :=
  match getAssoc s.indices id with
  | some n => (n : Int)
  | none => -1

/-! ## Timer (src/Handler.ts / Ticker) -/

/-- Timer state: scheduling fields plus the mutable id that Map.swap
overwrites.  next is kept equal to begin + interval * (times + 1). -/
structure Timer where
  tbegin : ℚ
  interval : ℚ
  once : Bool
  id : Int
  times : Nat
  next : ℚ
deriving DecidableEq

/-- Build a Timer as the constructor does: times = 0,
next = begin + interval. -/
def mkTimer (tbegin interval : ℚ) (once : Bool) (id : Int) : Timer :=
  { tbegin := tbegin, interval := interval, once := once, id := id
    times := 0, next := tbegin + interval }

/-- Timer.call: fire the handler, bump times, recompute next as
begin + interval * (times + 1) with the bumped times; the returned flag
is the once flag. -/
def Timer.call (t : Timer) : Timer × Bool :=
  ({ t with
      times := t.times + 1
      next := t.tbegin + t.interval * ((t.times + 1 : Nat) + 1) }, t.once)

/-- The comparator the Director installs: t1.next() < t2.next().
On an undefined cell the JS source would throw before comparing; that
state is unreachable from the public operations, and the model returns
false there. -/
def timerLess (a b : Option Timer) : Bool :=
  match a, b with
  | some x, some y => decide (x.next < y.next)
  | _, _ => false

/-- The id-indexed timer heap container used by the Director
(heap.map with the next() comparator). -/
def timerOps : ContOps (MapState Timer) Timer :=
  mapOps Timer.id (fun t i => { t with id := i }) timerLess

/-- Director.scheduleTimers(now): while the heap is nonempty and the
minimum's next is not past now, pop it, fire it, and push it back
unless it is a once timer.  The while loop is fuelled; get(0) on the
nonempty heap always yields a populated cell in reachable states (the
none fallbacks keep the model total). -/
def scheduleTimersF : Nat → ℚ → MapState Timer → MapState Timer
  | 0, _, s => s
  | fuel + 1, now, s =>
    if timerOps.size s > 0 then
      let nxt := match timerOps.get s 0 with
        | some t => t.next
        | none => 0
      if nxt > now then s
      else
        let r := hPop timerOps s
        match r.2 with
        | none => r.1
        | some ticker =>
          let c := Timer.call ticker
          let s2 := if c.2 then r.1 else hPush timerOps r.1 c.1
          scheduleTimersF fuel now s2
    else s

/-! ## Elements for exercising the generic Map container (C1) -/

/-- A minimal Identifiable element: a mutable id plus an ordering key. -/
structure MElem where
  id : Int
  key : ℚ
deriving DecidableEq

/-- Map container ops for MElem, ordered by key. -/
def melemOps : ContOps (MapState MElem) MElem :=
  mapOps MElem.id (fun e i => { e with id := i })
    (fun a b =>
      match a, b with
      | some x, some y => decide (x.key < y.key)
      | _, _ => false)

/-- The empty Map container state. -/
def emptyMap (T : Type) : MapState T := { elems := [], indices := [] }


/-! ## Helper lemmas for the single-timer advance loop -/

/-- The state of a repeating timer after one pop-fire-push round trip:
the pop corrupts the id field (Map.swap(0,0) overwrites it with the
index 0) and Timer.call advances times and next. -/
def fireOnce (t : Timer) : Timer := (Timer.call { t with id := 0 }).1

/-- Popping a one-element id-indexed timer heap: the element comes back
with its id overwritten to 0, and the dictionary entry for key 0 (the
corrupted id) is the one deleted. -/
theorem hPop_timer_singleton (t : Timer) (idx : List (Int × Nat)) :
    hPop timerOps ⟨[some t], idx⟩ =
      (⟨[], delAssoc idx 0⟩, some { t with id := 0 }) := rfl

/-- Pushing into an empty id-indexed timer heap. -/
theorem hPush_timer_empty (t : Timer) (idx : List (Int × Nat)) :
    hPush timerOps ⟨[], idx⟩ t = ⟨[some t], setAssoc idx t.id 0⟩ := rfl

/-- One unfolding of scheduleTimers on a one-timer heap whose minimum is
not yet due: the loop stops immediately. -/
theorem scheduleTimersF_stop (fuel : Nat) (now : ℚ) (t : Timer) (idx : List (Int × Nat))
    (hc : now < t.next) :
    scheduleTimersF (fuel + 1) now ⟨[some t], idx⟩ = ⟨[some t], idx⟩ := by
  have hget : timerOps.get ⟨[some t], idx⟩ 0 = some t := rfl
  have hsz : timerOps.size (⟨[some t], idx⟩ : MapState Timer) = 1 := rfl
  simp only [scheduleTimersF, hsz, hget]
  norm_num
  intro hle
  exact absurd hc (not_lt.mpr hle)

/-- One unfolding of scheduleTimers on a one-timer heap whose minimum is
due: the timer is popped, fired, pushed back (it is repeating), and the
loop continues in the same pass. -/
theorem scheduleTimersF_fire (fuel : Nat) (now : ℚ) (t : Timer) (idx : List (Int × Nat))
    (hc : ¬ now < t.next) (h0 : t.once = false) :
    scheduleTimersF (fuel + 1) now ⟨[some t], idx⟩ =
      scheduleTimersF fuel now ⟨[some (fireOnce t)], setAssoc (delAssoc idx 0) 0 0⟩ := by
  have hget : timerOps.get ⟨[some t], idx⟩ 0 = some t := rfl
  have hsz : timerOps.size (⟨[some t], idx⟩ : MapState Timer) = 1 := rfl
  simp only [scheduleTimersF, hsz, hget]
  norm_num
  rw [if_neg hc, hPop_timer_singleton]
  show scheduleTimersF fuel now
      (if (Timer.call { t with id := 0 }).2 = true then _ else _) = _
  rw [if_neg (show ¬ (Timer.call { t with id := 0 }).2 = true by
    simp [Timer.call, h0])]
  rfl

/-- Number of periods m >= 1 of a repeating timer (begin b, interval k)
that are due by time now, i.e. with b + k * m <= now. -/
def dueCount (b k now : ℚ) : Nat := (Int.floor ((now - b) / k)).toNat

/-- The m-th firing of a repeating timer is due exactly when m < dueCount. -/
theorem due_iff (b k now : ℚ) (hk : 0 < k) (m : Nat) :
    b + k * ((m : ℚ) + 1) ≤ now ↔ m < dueCount b k now := by
  rw [dueCount, Int.lt_toNat, Int.lt_iff_add_one_le, Int.le_floor, le_div_iff₀ hk]
  push_cast
  constructor <;> intro h <;> nlinarith


/-! ## Claim C1 -/

/-- C1 (code_bug evidence): the claim says that after any sequence of
push/pop/remove on the id-indexed heap, indexof(id) names the slot that
actually holds the element with that id, because every internal swap
updates the id-to-index map for both swapped elements.  The code
instead has Map.swap overwrite both elements' id FIELDS with their new
array indices and never touch the indices dictionary.  Concretely:
push an element with id 1 and key 5, then one with id 2 and key 3; the
sift-up swap runs, after which indexof 2 still answers 1 but slot 1
holds an element whose id is now 1 (no element with id 2 exists any
more - the swap destroyed both ids and left the dictionary stale). -/
theorem c1_indexof_desync :
    mapIndexof (hPush melemOps (hPush melemOps (emptyMap MElem) ⟨1, 5⟩) ⟨2, 3⟩) 2 = 1 ∧
    ((hPush melemOps (hPush melemOps (emptyMap MElem) ⟨1, 5⟩) ⟨2, 3⟩).elems.getD 1 none).map
        MElem.id = some 1 ∧
    ((hPush melemOps (hPush melemOps (emptyMap MElem) ⟨1, 5⟩) ⟨2, 3⟩).elems.getD 1 none).map
        MElem.id ≠ some 2 ∧
    (hPush melemOps (hPush melemOps (emptyMap MElem) ⟨1, 5⟩) ⟨2, 3⟩).elems =
      [some ⟨0, 3⟩, some ⟨1, 5⟩] := by
  decide

/-! ## Claim C10 -/

/-- C10: Heap.pop on the empty array-backed heap does not fault: the
swap(0, -1) writes an undefined cell at index 0 (JS assignment at index
= length), the sift-down loop exits at once, and popBack removes that
cell again and returns undefined; the heap is left empty. -/
theorem c10_pop_empty (T : Type) (lf : Option T → Option T → Bool) :
    hPop (arrayOps T lf) ([] : List (Option T)) = ([], none) ∧
    (arrayOps T lf).size ([] : List (Option T)) = 0 :=
  ⟨rfl, rfl⟩

/-! ## Claim C5 -/

/-- C5: a repeating timer with begin 0 and interval 1, freshly pushed
into the Director's timer heap (first timer, id 1), after a single
scheduleTimers pass at now = 3.5 has fired exactly 3 times and its next
due time is 4. -/
theorem c5_timer_fires_three_times :
    ((scheduleTimersF 10 (7 / 2)
        (hPush timerOps (emptyMap Timer) (mkTimer 0 1 false 1))).elems.getD 0 none).map
      Timer.times = some 3 ∧
    ((scheduleTimersF 10 (7 / 2)
        (hPush timerOps (emptyMap Timer) (mkTimer 0 1 false 1))).elems.getD 0 none).map
      Timer.next = some 4 := by
  have e0 : hPush timerOps (emptyMap Timer) (mkTimer 0 1 false 1) =
      ⟨[some (mkTimer 0 1 false 1)], [(1, 0)]⟩ := rfl
  have e1 : scheduleTimersF 10 (7 / 2) ⟨[some (mkTimer 0 1 false 1)], [(1, 0)]⟩ =
      scheduleTimersF 9 (7 / 2)
        ⟨[some (fireOnce (mkTimer 0 1 false 1))], setAssoc (delAssoc [(1, 0)] 0) 0 0⟩ :=
    scheduleTimersF_fire 9 _ _ _ (by norm_num [mkTimer]) rfl
  have hx1 : (⟨[some (fireOnce (mkTimer 0 1 false 1))], setAssoc (delAssoc [(1, 0)] 0) 0 0⟩ :
      MapState Timer) = ⟨[some ⟨0, 1, false, 0, 1, 2⟩], [(1, 0), (0, 0)]⟩ := by
    norm_num [fireOnce, Timer.call, mkTimer, setAssoc, delAssoc]
  have e2 : scheduleTimersF 9 (7 / 2)
        (⟨[some ⟨0, 1, false, 0, 1, 2⟩], [(1, 0), (0, 0)]⟩ : MapState Timer) =
      scheduleTimersF 8 (7 / 2)
        ⟨[some (fireOnce ⟨0, 1, false, 0, 1, 2⟩)], setAssoc (delAssoc [(1, 0), (0, 0)] 0) 0 0⟩ :=
    scheduleTimersF_fire 8 _ _ _ (by norm_num) rfl
  have hx2 : (⟨[some (fireOnce ⟨0, 1, false, 0, 1, 2⟩)],
        setAssoc (delAssoc [(1, 0), (0, 0)] 0) 0 0⟩ :
      MapState Timer) = ⟨[some ⟨0, 1, false, 0, 2, 3⟩], [(1, 0), (0, 0)]⟩ := by
    norm_num [fireOnce, Timer.call, setAssoc, delAssoc]
  have e3 : scheduleTimersF 8 (7 / 2)
        (⟨[some ⟨0, 1, false, 0, 2, 3⟩], [(1, 0), (0, 0)]⟩ : MapState Timer) =
      scheduleTimersF 7 (7 / 2)
        ⟨[some (fireOnce ⟨0, 1, false, 0, 2, 3⟩)], setAssoc (delAssoc [(1, 0), (0, 0)] 0) 0 0⟩ :=
    scheduleTimersF_fire 7 _ _ _ (by norm_num) rfl
  have hx3 : (⟨[some (fireOnce ⟨0, 1, false, 0, 2, 3⟩)],
        setAssoc (delAssoc [(1, 0), (0, 0)] 0) 0 0⟩ :
      MapState Timer) = ⟨[some ⟨0, 1, false, 0, 3, 4⟩], [(1, 0), (0, 0)]⟩ := by
    norm_num [fireOnce, Timer.call, setAssoc, delAssoc]
  have e4 : scheduleTimersF 7 (7 / 2)
        (⟨[some ⟨0, 1, false, 0, 3, 4⟩], [(1, 0), (0, 0)]⟩ : MapState Timer) =
      ⟨[some ⟨0, 1, false, 0, 3, 4⟩], [(1, 0), (0, 0)]⟩ :=
    scheduleTimersF_stop 6 _ _ _ (by norm_num)
  rw [e0, e1, hx1, e2, hx2, e3, hx3, e4]
  norm_num [List.getD]

/-! ## Claim C2 -/

/-- C2 (counterexample): the claim says a repeating timer fires at most
once per scheduleTimers pass, being reconsidered only on the next pass
even if its recomputed next due time is still not past now.  In the
code the while loop immediately reconsiders the pushed-back timer: a
repeating timer with begin 0 and interval 1 fires twice during the
single pass scheduleTimers(2.5). -/
theorem c2_counterexample :
    ((scheduleTimersF 10 (5 / 2)
        (hPush timerOps (emptyMap Timer) (mkTimer 0 1 false 1))).elems.getD 0 none).map
      Timer.times = some 2 := by
  have e0 : hPush timerOps (emptyMap Timer) (mkTimer 0 1 false 1) =
      ⟨[some (mkTimer 0 1 false 1)], [(1, 0)]⟩ := rfl
  have e1 : scheduleTimersF 10 (5 / 2) ⟨[some (mkTimer 0 1 false 1)], [(1, 0)]⟩ =
      scheduleTimersF 9 (5 / 2)
        ⟨[some (fireOnce (mkTimer 0 1 false 1))], setAssoc (delAssoc [(1, 0)] 0) 0 0⟩ :=
    scheduleTimersF_fire 9 _ _ _ (by norm_num [mkTimer]) rfl
  have hx1 : (⟨[some (fireOnce (mkTimer 0 1 false 1))], setAssoc (delAssoc [(1, 0)] 0) 0 0⟩ :
      MapState Timer) = ⟨[some ⟨0, 1, false, 0, 1, 2⟩], [(1, 0), (0, 0)]⟩ := by
    norm_num [fireOnce, Timer.call, mkTimer, setAssoc, delAssoc]
  have e2 : scheduleTimersF 9 (5 / 2)
        (⟨[some ⟨0, 1, false, 0, 1, 2⟩], [(1, 0), (0, 0)]⟩ : MapState Timer) =
      scheduleTimersF 8 (5 / 2)
        ⟨[some (fireOnce ⟨0, 1, false, 0, 1, 2⟩)], setAssoc (delAssoc [(1, 0), (0, 0)] 0) 0 0⟩ :=
    scheduleTimersF_fire 8 _ _ _ (by norm_num) rfl
  have hx2 : (⟨[some (fireOnce ⟨0, 1, false, 0, 1, 2⟩)],
        setAssoc (delAssoc [(1, 0), (0, 0)] 0) 0 0⟩ :
      MapState Timer) = ⟨[some ⟨0, 1, false, 0, 2, 3⟩], [(1, 0), (0, 0)]⟩ := by
    norm_num [fireOnce, Timer.call, setAssoc, delAssoc]
  have e3 : scheduleTimersF 8 (5 / 2)
        (⟨[some ⟨0, 1, false, 0, 2, 3⟩], [(1, 0), (0, 0)]⟩ : MapState Timer) =
      ⟨[some ⟨0, 1, false, 0, 2, 3⟩], [(1, 0), (0, 0)]⟩ :=
    scheduleTimersF_stop 7 _ _ _ (by norm_num)
  rw [e0, e1, hx1, e2, hx2, e3]
  norm_num [List.getD]

/-- C2 (amended): within a single scheduleTimers pass, a repeating timer
is pushed back immediately after each firing and reconsidered in the
same pass; it fires once per due period until its recomputed next due
time exceeds now.  Formally, for a lone repeating timer with positive
interval whose next field satisfies the Timer invariant, a pass with
sufficient fuel leaves a lone timer that has fired for exactly the
periods due by now (max with the old count) and whose next due time is
past now. -/
theorem c2_timer_refires_within_one_pass (fuel : Nat) :
    ∀ (t : Timer) (idx : List (Int × Nat)) (now : ℚ),
      t.once = false → 0 < t.interval →
      t.next = t.tbegin + t.interval * ((t.times : ℚ) + 1) →
      dueCount t.tbegin t.interval now + 1 ≤ fuel + t.times →
      ∃ t2 idx2,
        scheduleTimersF fuel now ⟨[some t], idx⟩ = ⟨[some t2], idx2⟩ ∧
        t2.tbegin = t.tbegin ∧ t2.interval = t.interval ∧ t2.once = false ∧
        t2.times = max t.times (dueCount t.tbegin t.interval now) ∧
        t2.next = t.tbegin + t.interval * ((t2.times : ℚ) + 1) ∧
        now < t2.next := by
  induction fuel with
  | zero =>
    intro t idx now h0 hk hinv hfuel
    have hdc : dueCount t.tbegin t.interval now < t.times := by omega
    have hnle : ¬ (t.tbegin + t.interval * ((t.times : ℚ) + 1) ≤ now) := by
      rw [due_iff _ _ _ hk]; omega
    refine ⟨t, idx, rfl, rfl, rfl, h0, ?_, hinv, ?_⟩
    · omega
    · rw [hinv]; exact not_le.mp hnle
  | succ fuel ih =>
    intro t idx now h0 hk hinv hfuel
    by_cases hc : now < t.next
    · have hnle : ¬ (t.tbegin + t.interval * ((t.times : ℚ) + 1) ≤ now) := by
        rw [← hinv]; exact not_le.mpr hc
      rw [due_iff _ _ _ hk] at hnle
      rw [scheduleTimersF_stop _ _ _ _ hc]
      exact ⟨t, idx, rfl, rfl, rfl, h0, by omega, hinv, hc⟩
    · have hle : t.tbegin + t.interval * ((t.times : ℚ) + 1) ≤ now := by
        rw [← hinv]; exact not_lt.mp hc
      rw [due_iff _ _ _ hk] at hle
      rw [scheduleTimersF_fire _ _ _ _ hc h0]
      have h0f : (fireOnce t).once = false := h0
      have hkf : 0 < (fireOnce t).interval := hk
      have hinvf : (fireOnce t).next =
          (fireOnce t).tbegin + (fireOnce t).interval * (((fireOnce t).times : ℚ) + 1) := by
        show t.tbegin + t.interval * ((t.times + 1 : Nat) + 1 : ℚ) =
          t.tbegin + t.interval * (((t.times + 1 : Nat) : ℚ) + 1)
        push_cast; ring
      have hfuelf : dueCount (fireOnce t).tbegin (fireOnce t).interval now + 1 ≤
          fuel + (fireOnce t).times := by
        show dueCount t.tbegin t.interval now + 1 ≤ fuel + (t.times + 1)
        omega
      obtain ⟨t2, idx2, heq, hb, hkk, ho, htimes, hnext, hlt⟩ :=
        ih (fireOnce t) (setAssoc (delAssoc idx 0) 0 0) now h0f hkf hinvf hfuelf
      refine ⟨t2, idx2, heq, hb, hkk, ho, ?_, hnext, hlt⟩
      have h2 : t2.times = max (t.times + 1) (dueCount t.tbegin t.interval now) := htimes
      omega

/-- Witness for C2 (amended): a repeating timer with begin 1 and
interval 2 (id 3), advanced in a single pass at now = 8: it fires 3
times (the periods due at 3, 5, 7) and ends with next due time 9 > 8. -/
theorem c2_timer_refires_within_one_pass_witness :
    ∃ t2 idx2,
      scheduleTimersF 6 8 ⟨[some (mkTimer 1 2 false 3)], [(3, 0)]⟩ = ⟨[some t2], idx2⟩ ∧
      t2.times = 3 ∧ t2.next = 9 ∧ (8 : ℚ) < t2.next := by
  obtain ⟨t2, idx2, heq, hb, hk, ho, htimes, hnext, hlt⟩ :=
    c2_timer_refires_within_one_pass 6 (mkTimer 1 2 false 3) [(3, 0)] 8 rfl
      (by norm_num [mkTimer])
      (by norm_num [mkTimer])
      (by norm_num [mkTimer, dueCount]; omega)
  have ht : t2.times = 3 := by
    rw [htimes]; norm_num [mkTimer, dueCount]; omega
  refine ⟨t2, idx2, heq, ht, ?_, hlt⟩
  rw [hnext, ht]
  norm_num [mkTimer]


/-! ## ActionManager (src/Action.ts)

The manager maps target identities to HashElement records and drives
every action's step once per update pass.  For the manager's own logic
an action is characterised by what the manager observes of it: its
identity, tag, bound original target, whether isDone() answers true
after a step, and what its step does to the manager.  The two kinds
below embed the repository's concrete cases: a generic leaf action
(step only advances the action; isDone is its completion flag) and a
CallFunc instant action (isDone always true) whose callback may call
back into the manager - in particular removeAction on the action
itself, the re-entrant case of the spec.  The step of every action is
recorded in a log of action identities so that theorems can count how
often each action was stepped. -/

/-- What a CallFunc callback does to the manager: nothing, or
removeAction(the action itself). -/
inductive CbOp where
  | cbnone
  | removeSelf
deriving DecidableEq

/-- Manager-visible kind of an action. -/
inductive ActKind where
  | plain (done : Bool)
  | callfunc (op : CbOp)
deriving DecidableEq

/-- Manager-visible state of an action: identity, tag, originalTarget
(set by startWithTarget), kind. -/
structure Act where
  aid : Nat
  tag : Int
  otarget : Int
  kind : ActKind
deriving DecidableEq

/-- isDone() as the manager sees it: a CallFunc is an ActionInstant and
is always done; a generic leaf reports its completion flag. -/
def Act.isDone (a : Act) : Bool :=
  match a.kind with
  | .plain d => d
  | .callfunc _ => true

/-- One HashElement record: target id (targets are identified by their
stable id), action list, in-progress iteration index, currently
executing action (by identity), paused and lock flags. -/
structure HashElem where
  target : Int
  actions : List Act
  actionIndex : Int
  currentAction : Option Nat
  paused : Bool
  lock : Bool
deriving DecidableEq

/-- A freshly reset record, as $putElement leaves it (target null is
modelled as 0; pooled records are only read after retargeting). -/
def resetElem : HashElem :=
  { target := 0, actions := [], actionIndex := 0, currentAction := none
    paused := false, lock := false }

/-- Manager state: the record array (the $elementsMap dictionary and the
$elementsArr array are kept in lockstep by every operation of the
source, so a single target-keyed ordered list embeds both), the record
pool, and the step log (identities of actions whose step ran, in
order). -/
structure AMState where
  elems : List HashElem
  pool : List HashElem
  log : List Nat
deriving DecidableEq

/-- $elementsMap[target.id] lookup. -/
def findElem (st : AMState) (tid : Int) : Option HashElem :=
  st.elems.find? (fun r => r.target == tid)

/-- Mutate the record of a target in place. -/
def updateElem (st : AMState) (tid : Int) (f : HashElem → HashElem) : AMState :=
  { st with elems := st.elems.map (fun r => if r.target == tid then f r else r) }

/-- The scanning for-loop used by removeAction / removeActionByTag:
index of the first action matching the predicate. -/
def scanIdx (p : Act → Bool) : List Act → Option Nat
  | [] => none
  | a :: rest => if p a then some 0 else (scanIdx p rest).map (fun n => n + 1)

/-- $deleteHashElement: no-op while the record is locked; otherwise
remove the record from the map/array and recycle a reset record into
the pool. -/
def deleteHashElement (st : AMState) (tid : Int) : AMState :=
  match findElem st tid with
  | none => st
  | some r =>
    if r.lock then st
    else
      { elems := st.elems.eraseP (fun x => x.target == tid)
        pool := st.pool ++ [resetElem]
        log := st.log }

/-- addAction: create or reuse the target's record (pulling a pooled
record when one exists), append the action, and startWithTarget binds
the action's originalTarget. -/
def addAction (st : AMState) (a : Act) (tid : Int) (paused : Bool) : AMState :=
  match findElem st tid with
  | some _ =>
    updateElem st tid (fun r => { r with actions := r.actions ++ [{ a with otarget := tid }] })
  | none =>
    let pick : HashElem × List HashElem :=
      match st.pool.getLast? with
      | none => (resetElem, st.pool)
      | some el => (el, st.pool.dropLast)
    let el := { pick.1 with target := tid, paused := paused }
    let st1 := { st with pool := pick.2, elems := st.elems ++ [el] }
    updateElem st1 tid (fun r => { r with actions := r.actions ++ [{ a with otarget := tid }] })

/-- removeAction(action): look the record up under the action's
originalTarget, splice out the first identical action, and pull the
in-progress iteration index back when the removal was at or before it.
The record is NOT deleted even when its list becomes empty. -/
def removeAction (st : AMState) (tid : Int) (aid : Nat) : AMState :=
  match findElem st tid with
  | none => st
  | some r =>
    match scanIdx (fun x => x.aid == aid) r.actions with
    | none => st
    | some i =>
      updateElem st tid (fun rr =>
        { rr with
            actions := rr.actions.eraseIdx i
            actionIndex := if (i : Int) ≤ rr.actionIndex then rr.actionIndex - 1 else rr.actionIndex })

/-- $removeActionAtIndex: splice, adjust the iteration index, and delete
the record when its list became empty. -/
def removeActionAtIndex (st : AMState) (tid : Int) (i : Nat) : AMState :=
  let st1 := updateElem st tid (fun r =>
    { r with
        actions := r.actions.eraseIdx i
        actionIndex := if (i : Int) ≤ r.actionIndex then r.actionIndex - 1 else r.actionIndex })
  match findElem st1 tid with
  | some r1 => if r1.actions.length = 0 then deleteHashElement st1 tid else st1
  | none => st1

/-- removeActionByTag: first action with the tag whose originalTarget is
the target. -/
def removeActionByTag (st : AMState) (tag : Int) (tid : Int) : AMState :=
  match findElem st tid with
  | none => st
  | some r =>
    match scanIdx (fun a => a.tag == tag && a.otarget == tid) r.actions with
    | none => st
    | some i => removeActionAtIndex st tid i

/-- removeAllActionsFromTarget: clear the list, then delete the record
(deferred when locked). -/
def removeAllActionsFromTarget (st : AMState) (tid : Int) : AMState :=
  match findElem st tid with
  | none => st
  | some _ => deleteHashElement (updateElem st tid (fun r => { r with actions := [] })) tid

/-- The state effect of one action's step: the step is logged, then a
CallFunc callback runs (re-entering the manager). -/
def stepAct (st : AMState) (a : Act) : AMState :=
  let st1 := { st with log := st.log ++ [a.aid] }
  match a.kind with
  | .plain _ => st1
  | .callfunc .cbnone => st1
  | .callfunc .removeSelf => removeAction st1 a.otarget a.aid

/-- The inner for-loop of update over one record's actions: fetch
actions[actionIndex] into currentAction (continue when the slot is
empty), step it, and if the still-set currentAction is done, stop it and
removeAction it; then clear currentAction and advance the index. -/
def updateInnerF : Nat → AMState → Int → AMState
  | 0, st, _ => st
  | fuel + 1, st, tid =>
    match findElem st tid with
    | none => st
    | some r =>
      if r.actionIndex < (r.actions.length : Int) then
        match (if 0 ≤ r.actionIndex then r.actions[r.actionIndex.toNat]? else none) with
        | none =>
          updateInnerF fuel
            (updateElem st tid (fun rr =>
              { rr with currentAction := none, actionIndex := rr.actionIndex + 1 })) tid
        | some a =>
          let st1 := updateElem st tid (fun rr => { rr with currentAction := some a.aid })
          let st2 := stepAct st1 a
          let st3 :=
            match findElem st2 tid with
            | none => st2
            | some r2 =>
              if r2.currentAction.isSome && a.isDone then
                removeAction
                  (updateElem st2 tid (fun rr => { rr with currentAction := none })) tid a.aid
              else st2
          let st4 := updateElem st3 tid (fun rr =>
            { rr with currentAction := none, actionIndex := rr.actionIndex + 1 })
          updateInnerF fuel st4 tid
      else st

/-- The outer loop of update over the record array: lock the record,
run the inner loop from index 0 (skipped when paused), unlock, and if
the record's list is now empty delete it and compensate the index. -/
def updateOuterF (ifuel : Nat) : Nat → AMState → Nat → AMState
  | 0, st, _ => st
  | fuel + 1, st, i =>
    match st.elems[i]? with
    | none => st
    | some r =>
      let tid := r.target
      let st1 :=
        if r.paused then st
        else
          let stL := updateElem st tid (fun rr => { rr with lock := true, actionIndex := 0 })
          let stI := updateInnerF ifuel stL tid
          updateElem stI tid (fun rr => { rr with lock := false })
      match findElem st1 tid with
      | none => updateOuterF ifuel fuel st1 (i + 1)
      | some r2 =>
        if r2.actions.length = 0 then updateOuterF ifuel fuel (deleteHashElement st1 tid) i
        else updateOuterF ifuel fuel st1 (i + 1)

/-- ActionManager.update(dt).  dt only scales what each step hands to
the action's own timing and does not influence the manager's control
flow, which is what the manager claims are about. -/
def AMupdate (_dt : ℚ) (ifuel ofuel : Nat) (st : AMState) : AMState :=
  updateOuterF ifuel ofuel st 0


/-! ## Focused-state rewriting lemmas for the manager proofs -/

/-- No record of the list carries the given target id. -/
def noTid (l : List HashElem) (tid : Int) : Prop := ∀ x ∈ l, x.target ≠ tid

theorem noTid_nil (tid : Int) : noTid [] tid := by intro x hx; cases hx

theorem findElem_focus (pre : List HashElem) (r : HashElem) (post : List HashElem)
    (pool : List HashElem) (log : List Nat) (tid : Int)
    (hr : r.target = tid) (hpre : noTid pre tid) :
    findElem ⟨pre ++ r :: post, pool, log⟩ tid = some r := by
  induction pre with
  | nil => simp [findElem, hr]
  | cons x xs ih =>
    have hx : (x.target == tid) = false := by
      simp only [beq_eq_false_iff_ne, ne_eq]
      exact hpre x (by simp)
    have ih2 := ih (fun y hy => hpre y (by simp [hy]))
    simpa [findElem, hx] using ih2

theorem mapIf_noTid (l : List HashElem) (tid : Int) (f : HashElem → HashElem)
    (h : noTid l tid) :
    l.map (fun r => if r.target == tid then f r else r) = l := by
  induction l with
  | nil => rfl
  | cons x xs ih =>
    have hx : (x.target == tid) = false := by
      simp only [beq_eq_false_iff_ne, ne_eq]
      exact h x (by simp)
    simp only [List.map_cons, hx, Bool.false_eq_true, if_false]
    rw [ih (fun y hy => h y (by simp [hy]))]

theorem updateElem_focus (pre : List HashElem) (r : HashElem) (post : List HashElem)
    (pool : List HashElem) (log : List Nat) (tid : Int) (f : HashElem → HashElem)
    (hr : r.target = tid) (hpre : noTid pre tid) (hpost : noTid post tid) :
    updateElem ⟨pre ++ r :: post, pool, log⟩ tid f = ⟨pre ++ f r :: post, pool, log⟩ := by
  simp only [updateElem, List.map_append, List.map_cons, hr, beq_self_eq_true, if_true,
    mapIf_noTid pre tid f hpre, mapIf_noTid post tid f hpost]

theorem eraseP_focus (pre : List HashElem) (r : HashElem) (post : List HashElem) (tid : Int)
    (hr : r.target = tid) (hpre : noTid pre tid) :
    (pre ++ r :: post).eraseP (fun x => x.target == tid) = pre ++ post := by
  induction pre with
  | nil => simp [List.eraseP_cons, hr]
  | cons x xs ih =>
    have hx : (x.target == tid) = false := by
      simp only [beq_eq_false_iff_ne, ne_eq]
      exact hpre x (by simp)
    simp [List.eraseP_cons, hx, ih (fun y hy => hpre y (by simp [hy]))]

theorem scanIdx_eq_none (p : Act → Bool) (l : List Act) (h : ∀ x ∈ l, p x = false) :
    scanIdx p l = none := by
  induction l with
  | nil => rfl
  | cons a rest ih =>
    simp [scanIdx, h a (by simp), ih (fun y hy => h y (by simp [hy]))]

theorem scanIdx_append_found (p : Act → Bool) (l1 : List Act) (a : Act) (l2 : List Act)
    (h1 : ∀ x ∈ l1, p x = false) (ha : p a = true) :
    scanIdx p (l1 ++ a :: l2) = some l1.length := by
  induction l1 with
  | nil => simp [scanIdx, ha]
  | cons x xs ih =>
    simp [scanIdx, h1 x (by simp), ih (fun y hy => h1 y (by simp [hy]))]

theorem eraseIdx_at_append {α : Type} (l1 : List α) (a : α) (l2 : List α) :
    (l1 ++ a :: l2).eraseIdx l1.length = l1 ++ l2 := by
  induction l1 with
  | nil => simp [List.eraseIdx]
  | cons x xs ih => simp [List.eraseIdx, ih]

theorem getElem?_at_append {α : Type} (l1 : List α) (a : α) (l2 : List α) :
    (l1 ++ a :: l2)[l1.length]? = some a := by
  induction l1 with
  | nil => simp
  | cons x xs ih => simpa using ih

theorem removeAction_found (pre post : List HashElem) (pool : List HashElem) (log : List Nat)
    (tid : Int) (fin rest : List Act) (a : Act) (idx0 : Int) (cur : Option Nat) (pz lk : Bool)
    (hpre : noTid pre tid) (hpost : noTid post tid)
    (hfresh : ∀ x ∈ fin, x.aid ≠ a.aid) :
    removeAction ⟨pre ++ ⟨tid, fin ++ a :: rest, idx0, cur, pz, lk⟩ :: post, pool, log⟩ tid a.aid =
      ⟨pre ++ ⟨tid, fin ++ rest,
          if (fin.length : Int) ≤ idx0 then idx0 - 1 else idx0, cur, pz, lk⟩ :: post,
        pool, log⟩ := by
  have hscan : scanIdx (fun x => x.aid == a.aid) (fin ++ a :: rest) = some fin.length :=
    scanIdx_append_found _ fin a rest (fun x hx => by simp [hfresh x hx]) (by simp)
  simp only [removeAction,
    findElem_focus pre ⟨tid, fin ++ a :: rest, idx0, cur, pz, lk⟩ post pool log tid rfl hpre,
    hscan]
  rw [updateElem_focus pre ⟨tid, fin ++ a :: rest, idx0, cur, pz, lk⟩ post pool log tid _
    rfl hpre hpost]
  simp only [eraseIdx_at_append]

theorem removeAction_miss (pre post : List HashElem) (pool : List HashElem) (log : List Nat)
    (tid : Int) (acts : List Act) (idx0 : Int) (cur : Option Nat) (pz lk : Bool) (aid : Nat)
    (hpre : noTid pre tid) (hmiss : ∀ x ∈ acts, x.aid ≠ aid) :
    removeAction ⟨pre ++ ⟨tid, acts, idx0, cur, pz, lk⟩ :: post, pool, log⟩ tid aid =
      ⟨pre ++ ⟨tid, acts, idx0, cur, pz, lk⟩ :: post, pool, log⟩ := by
  have hscan : scanIdx (fun x => x.aid == aid) acts = none :=
    scanIdx_eq_none _ _ (fun x hx => by simp [hmiss x hx])
  simp only [removeAction,
    findElem_focus pre ⟨tid, acts, idx0, cur, pz, lk⟩ post pool log tid rfl hpre, hscan]


/-! ## Evaluation of the inner update loop -/


theorem updateInner_iter_kept (fin rest' : List Act) (pre post : List HashElem)
    (pool : List HashElem) (log : List Nat) (tid : Int) (pz lk : Bool) (fuel : Nat) (a : Act)
    (hpre : noTid pre tid) (hpost : noTid post tid)
    (hdone : a.isDone = false) :
    updateInnerF (fuel + 1)
        ⟨pre ++ ⟨tid, fin ++ a :: rest', (fin.length : Int), none, pz, lk⟩ :: post, pool, log⟩ tid =
      updateInnerF fuel
        ⟨pre ++ ⟨tid, fin ++ a :: rest', (fin.length : Int) + 1, none, pz, lk⟩ :: post,
          pool, log ++ [a.aid]⟩ tid := by
  obtain ⟨aid, tg, ot, k⟩ := a
  cases k with
  | callfunc op => simp [Act.isDone] at hdone
  | plain d =>
    simp only [Act.isDone] at hdone
    subst hdone
    have hlt : ((fin.length : Nat) : Int) <
        (((fin ++ (⟨aid, tg, ot, .plain false⟩ : Act) :: rest').length : Nat) : Int) := by
      simp [List.length_append]
    simp only [updateInnerF,
      findElem_focus pre ⟨tid, fin ++ (⟨aid, tg, ot, .plain false⟩ : Act) :: rest',
        (fin.length : Int), none, pz, lk⟩ post pool log tid rfl hpre]
    rw [if_pos hlt]
    rw [if_pos (Int.natCast_nonneg fin.length)]
    have hget : (fin ++ (⟨aid, tg, ot, .plain false⟩ : Act) :: rest')[((fin.length : Int)).toNat]? =
        some (⟨aid, tg, ot, .plain false⟩ : Act) := by
      simpa using getElem?_at_append fin _ rest'
    rw [hget]
    simp only []
    rw [updateElem_focus pre ⟨tid, fin ++ (⟨aid, tg, ot, .plain false⟩ : Act) :: rest',
      (fin.length : Int), none, pz, lk⟩ post pool log tid _ rfl hpre hpost]
    simp only [stepAct]
    rw [findElem_focus pre ⟨tid, fin ++ (⟨aid, tg, ot, .plain false⟩ : Act) :: rest',
      (fin.length : Int), some aid, pz, lk⟩ post pool (log ++ [aid]) tid rfl hpre]
    simp only [Option.isSome_some, Act.isDone, Bool.and_false, Bool.false_eq_true, if_false]
    rw [updateElem_focus pre ⟨tid, fin ++ (⟨aid, tg, ot, .plain false⟩ : Act) :: rest',
      (fin.length : Int), some aid, pz, lk⟩ post pool (log ++ [aid]) tid _ rfl hpre hpost]


theorem updateInner_iter_removed (fin rest' : List Act) (pre post : List HashElem)
    (pool : List HashElem) (log : List Nat) (tid : Int) (pz lk : Bool) (fuel : Nat) (a : Act)
    (hpre : noTid pre tid) (hpost : noTid post tid)
    (hdone : a.isDone = true)
    (hfreshF : ∀ x ∈ fin, x.aid ≠ a.aid) (hfreshR : ∀ x ∈ rest', x.aid ≠ a.aid)
    (hot : a.otarget = tid) :
    updateInnerF (fuel + 1)
        ⟨pre ++ ⟨tid, fin ++ a :: rest', (fin.length : Int), none, pz, lk⟩ :: post, pool, log⟩ tid =
      updateInnerF fuel
        ⟨pre ++ ⟨tid, fin ++ rest', (fin.length : Int), none, pz, lk⟩ :: post,
          pool, log ++ [a.aid]⟩ tid := by
  obtain ⟨aid, tg, ot, k⟩ := a
  simp only [Act.otarget] at hot
  subst hot
  have hfreshF2 : ∀ x ∈ fin, x.aid ≠ aid := fun x hx => hfreshF x hx
  have hfreshR2 : ∀ x ∈ rest', x.aid ≠ aid := fun x hx => hfreshR x hx
  cases k with
  | plain d =>
    simp only [Act.isDone] at hdone
    subst hdone
    have hlt : ((fin.length : Nat) : Int) <
        (((fin ++ (⟨aid, tg, ot, .plain true⟩ : Act) :: rest').length : Nat) : Int) := by
      simp [List.length_append]
    simp only [updateInnerF,
      findElem_focus pre ⟨ot, fin ++ (⟨aid, tg, ot, .plain true⟩ : Act) :: rest',
        (fin.length : Int), none, pz, lk⟩ post pool log ot rfl hpre]
    rw [if_pos hlt]
    rw [if_pos (Int.natCast_nonneg fin.length)]
    have hget : (fin ++ (⟨aid, tg, ot, .plain true⟩ : Act) :: rest')[((fin.length : Int)).toNat]? =
        some (⟨aid, tg, ot, .plain true⟩ : Act) := by
      simpa using getElem?_at_append fin _ rest'
    rw [hget]
    simp only []
    rw [updateElem_focus pre ⟨ot, fin ++ (⟨aid, tg, ot, .plain true⟩ : Act) :: rest',
      (fin.length : Int), none, pz, lk⟩ post pool log ot _ rfl hpre hpost]
    simp only [stepAct]
    rw [findElem_focus pre ⟨ot, fin ++ (⟨aid, tg, ot, .plain true⟩ : Act) :: rest',
      (fin.length : Int), some aid, pz, lk⟩ post pool (log ++ [aid]) ot rfl hpre]
    simp only [Option.isSome_some, Act.isDone, Bool.and_self, if_true]
    rw [updateElem_focus pre ⟨ot, fin ++ (⟨aid, tg, ot, .plain true⟩ : Act) :: rest',
      (fin.length : Int), some aid, pz, lk⟩ post pool (log ++ [aid]) ot _ rfl hpre hpost]
    rw [removeAction_found pre post pool (log ++ [aid]) ot fin rest'
      ⟨aid, tg, ot, .plain true⟩ (fin.length : Int) none pz lk hpre hpost hfreshF2]
    rw [if_pos (le_refl ((fin.length : Nat) : Int))]
    rw [updateElem_focus pre ⟨ot, fin ++ rest', (fin.length : Int) - 1, none, pz, lk⟩
      post pool (log ++ [aid]) ot _ rfl hpre hpost]
    norm_num
  | callfunc op =>
    cases op with
    | cbnone =>
      have hlt : ((fin.length : Nat) : Int) <
          (((fin ++ (⟨aid, tg, ot, .callfunc .cbnone⟩ : Act) :: rest').length : Nat) : Int) := by
        simp [List.length_append]
      simp only [updateInnerF,
        findElem_focus pre ⟨ot, fin ++ (⟨aid, tg, ot, .callfunc .cbnone⟩ : Act) :: rest',
          (fin.length : Int), none, pz, lk⟩ post pool log ot rfl hpre]
      rw [if_pos hlt]
      rw [if_pos (Int.natCast_nonneg fin.length)]
      have hget : (fin ++ (⟨aid, tg, ot, .callfunc .cbnone⟩ : Act) :: rest')[((fin.length : Int)).toNat]? =
          some (⟨aid, tg, ot, .callfunc .cbnone⟩ : Act) := by
        simpa using getElem?_at_append fin _ rest'
      rw [hget]
      simp only []
      rw [updateElem_focus pre ⟨ot, fin ++ (⟨aid, tg, ot, .callfunc .cbnone⟩ : Act) :: rest',
        (fin.length : Int), none, pz, lk⟩ post pool log ot _ rfl hpre hpost]
      simp only [stepAct]
      rw [findElem_focus pre ⟨ot, fin ++ (⟨aid, tg, ot, .callfunc .cbnone⟩ : Act) :: rest',
        (fin.length : Int), some aid, pz, lk⟩ post pool (log ++ [aid]) ot rfl hpre]
      simp only [Option.isSome_some, Act.isDone, Bool.and_self, if_true]
      rw [updateElem_focus pre ⟨ot, fin ++ (⟨aid, tg, ot, .callfunc .cbnone⟩ : Act) :: rest',
        (fin.length : Int), some aid, pz, lk⟩ post pool (log ++ [aid]) ot _ rfl hpre hpost]
      rw [removeAction_found pre post pool (log ++ [aid]) ot fin rest'
        ⟨aid, tg, ot, .callfunc .cbnone⟩ (fin.length : Int) none pz lk hpre hpost hfreshF2]
      rw [if_pos (le_refl ((fin.length : Nat) : Int))]
      rw [updateElem_focus pre ⟨ot, fin ++ rest', (fin.length : Int) - 1, none, pz, lk⟩
        post pool (log ++ [aid]) ot _ rfl hpre hpost]
      norm_num
    | removeSelf =>
      have hlt : ((fin.length : Nat) : Int) <
          (((fin ++ (⟨aid, tg, ot, .callfunc .removeSelf⟩ : Act) :: rest').length : Nat) : Int) := by
        simp [List.length_append]
      simp only [updateInnerF,
        findElem_focus pre ⟨ot, fin ++ (⟨aid, tg, ot, .callfunc .removeSelf⟩ : Act) :: rest',
          (fin.length : Int), none, pz, lk⟩ post pool log ot rfl hpre]
      rw [if_pos hlt]
      rw [if_pos (Int.natCast_nonneg fin.length)]
      have hget : (fin ++ (⟨aid, tg, ot, .callfunc .removeSelf⟩ : Act) :: rest')[((fin.length : Int)).toNat]? =
          some (⟨aid, tg, ot, .callfunc .removeSelf⟩ : Act) := by
        simpa using getElem?_at_append fin _ rest'
      rw [hget]
      simp only []
      rw [updateElem_focus pre ⟨ot, fin ++ (⟨aid, tg, ot, .callfunc .removeSelf⟩ : Act) :: rest',
        (fin.length : Int), none, pz, lk⟩ post pool log ot _ rfl hpre hpost]
      simp only [stepAct]
      rw [removeAction_found pre post pool (log ++ [aid]) ot fin rest'
        ⟨aid, tg, ot, .callfunc .removeSelf⟩ (fin.length : Int) (some aid) pz lk hpre hpost hfreshF2]
      rw [if_pos (le_refl ((fin.length : Nat) : Int))]
      rw [findElem_focus pre ⟨ot, fin ++ rest', (fin.length : Int) - 1, some aid, pz, lk⟩
        post pool (log ++ [aid]) ot rfl hpre]
      simp only [Option.isSome_some, Act.isDone, Bool.and_self, if_true]
      rw [updateElem_focus pre ⟨ot, fin ++ rest', (fin.length : Int) - 1, some aid, pz, lk⟩
        post pool (log ++ [aid]) ot _ rfl hpre hpost]
      rw [removeAction_miss pre post pool (log ++ [aid]) ot (fin ++ rest')
        ((fin.length : Int) - 1) none pz lk aid hpre
        (fun x hx => by
          rcases List.mem_append.mp hx with h1 | h2
          · exact hfreshF2 x h1
          · exact hfreshR2 x h2)]
      rw [updateElem_focus pre ⟨ot, fin ++ rest', (fin.length : Int) - 1, none, pz, lk⟩
        post pool (log ++ [aid]) ot _ rfl hpre hpost]
      norm_num

theorem updateInner_run (rest : List Act) :
    ∀ (fin : List Act) (fuel : Nat) (pre post : List HashElem) (pool : List HashElem)
      (log : List Nat) (tid : Int) (pz lk : Bool),
      noTid pre tid → noTid post tid →
      ((fin ++ rest).map Act.aid).Nodup →
      (∀ x ∈ rest, x.otarget = tid) →
      rest.length + 1 ≤ fuel →
      updateInnerF fuel
          ⟨pre ++ ⟨tid, fin ++ rest, (fin.length : Int), none, pz, lk⟩ :: post, pool, log⟩ tid =
        ⟨pre ++ ⟨tid, fin ++ rest.filter (fun x => !x.isDone),
            ((fin.length + (rest.filter (fun x => !x.isDone)).length : Nat) : Int),
            none, pz, lk⟩ :: post,
          pool, log ++ rest.map Act.aid⟩ := by
  induction rest with
  | nil =>
    intro fin fuel pre post pool log tid pz lk hpre hpost hnd hot hfuel
    cases fuel with
    | zero => omega
    | succ f =>
      simp only [updateInnerF,
        findElem_focus pre ⟨tid, fin ++ [], (fin.length : Int), none, pz, lk⟩ post pool log tid
          rfl hpre]
      rw [if_neg (by simp)]
      simp
  | cons a rest2 ih =>
    intro fin fuel pre post pool log tid pz lk hpre hpost hnd hot hfuel
    cases fuel with
    | zero => omega
    | succ f =>
      have hnd2 : (a.aid :: ((fin ++ rest2).map Act.aid)).Nodup := by
        have h1 := hnd
        rw [List.map_append, List.map_cons, List.nodup_middle] at h1
        simpa [List.map_append] using h1
      have hfF : ∀ x ∈ fin, x.aid ≠ a.aid := by
        intro x hx hcontra
        have : a.aid ∈ (fin ++ rest2).map Act.aid := by
          rw [List.map_append]
          exact List.mem_append_left _ (hcontra ▸ List.mem_map_of_mem Act.aid hx)
        exact (List.nodup_cons.mp hnd2).1 this
      have hfR : ∀ x ∈ rest2, x.aid ≠ a.aid := by
        intro x hx hcontra
        have : a.aid ∈ (fin ++ rest2).map Act.aid := by
          rw [List.map_append]
          exact List.mem_append_right _ (hcontra ▸ List.mem_map_of_mem Act.aid hx)
        exact (List.nodup_cons.mp hnd2).1 this
      have hot2 : ∀ x ∈ rest2, x.otarget = tid := fun x hx => hot x (by simp [hx])
      have hotA : a.otarget = tid := hot a (by simp)
      by_cases hd : a.isDone = true
      · rw [updateInner_iter_removed fin rest2 pre post pool log tid pz lk f a hpre hpost hd
          hfF hfR hotA]
        rw [ih fin f pre post pool (log ++ [a.aid]) tid pz lk hpre hpost
          (List.nodup_cons.mp hnd2).2 hot2 (by simpa using Nat.le_of_succ_le_succ hfuel)]
        simp [hd, List.filter_cons]
      · have hd2 : a.isDone = false := by simpa using hd
        rw [updateInner_iter_kept fin rest2 pre post pool log tid pz lk f a hpre hpost hd2]
        have hconv : (⟨pre ++ ⟨tid, fin ++ a :: rest2, (fin.length : Int) + 1, none, pz, lk⟩ :: post,
            pool, log ++ [a.aid]⟩ : AMState) =
            ⟨pre ++ ⟨tid, (fin ++ [a]) ++ rest2, (((fin ++ [a]).length : Nat) : Int), none, pz, lk⟩ :: post,
            pool, log ++ [a.aid]⟩ := by
          simp [List.append_assoc, List.length_append]
        rw [hconv]
        have hndK : (((fin ++ [a]) ++ rest2).map Act.aid).Nodup := by
          have := hnd
          rw [show (fin ++ [a]) ++ rest2 = fin ++ a :: rest2 by simp]
          exact this
        rw [ih (fin ++ [a]) f pre post pool (log ++ [a.aid]) tid pz lk hpre hpost hndK hot2
          (by simpa using Nat.le_of_succ_le_succ hfuel)]
        simp [hd2, List.filter_cons, List.length_append]
        ring


/-! ## Evaluation of the outer update loop -/


/-- The record that one pass of update leaves behind for an input
record, or none when the record is deleted: a paused record survives
unchanged iff nonempty; an unpaused record keeps exactly its not-done
actions and survives iff some action remains, with the iteration index
left at the list length, currentAction cleared and the lock released. -/
def survive (r : HashElem) : Option HashElem :=
  if r.paused then (if r.actions.length = 0 then none else some r)
  else
    let kept := r.actions.filter (fun x => !x.isDone)
    if kept.length = 0 then none
    else some ⟨r.target, kept, (kept.length : Int), none, false, false⟩

/-- The step log one pass of update appends for a record: every action
of an unpaused record is stepped exactly once, in list order. -/
def firedLog (r : HashElem) : List Nat :=
  if r.paused then [] else r.actions.map Act.aid

/-- The pool gain from a record: a reset record exactly when it was
deleted. -/
def poolAdd (r : HashElem) : List HashElem :=
  if (survive r).isSome then [] else [resetElem]

/-- Evaluation of the whole update pass from record position
pre.length on: every record is processed in order; deleted records are
recycled and the outer index compensated so no record is skipped. -/
theorem updateOuter_run (rest : List HashElem) :
    ∀ (pre : List HashElem) (pool : List HashElem) (log : List Nat) (ifuel ofuel : Nat),
      ((pre ++ rest).map HashElem.target).Nodup →
      (∀ r ∈ rest, r.lock = false ∧ r.currentAction = none ∧
          (r.actions.map Act.aid).Nodup ∧ ∀ x ∈ r.actions, x.otarget = r.target) →
      (∀ r ∈ rest, r.actions.length + 1 ≤ ifuel) →
      2 * rest.length + 1 ≤ ofuel →
      updateOuterF ifuel ofuel ⟨pre ++ rest, pool, log⟩ pre.length =
        ⟨pre ++ rest.filterMap survive,
          pool ++ (rest.map poolAdd).join,
          log ++ (rest.map firedLog).join⟩ := by
  induction rest with
  | nil =>
    intro pre pool log ifuel ofuel hnd hrec hif hof
    cases ofuel with
    | zero => omega
    | succ f =>
      simp only [updateOuterF]
      rw [show (pre ++ ([] : List HashElem))[pre.length]? = none by
        simp [List.getElem?_eq_none]]
      simp
  | cons r rest2 ih =>
    intro pre pool log ifuel ofuel hnd hrec hif hof
    cases ofuel with
    | zero => omega
    | succ f =>
      obtain ⟨hlk, hcur, haid, hot⟩ := hrec r (by simp)
      have hrec2 : ∀ x ∈ rest2, x.lock = false ∧ x.currentAction = none ∧
          (x.actions.map Act.aid).Nodup ∧ ∀ y ∈ x.actions, y.otarget = x.target :=
        fun x hx => hrec x (by simp [hx])
      have hif2 : ∀ x ∈ rest2, x.actions.length + 1 ≤ ifuel :=
        fun x hx => hif x (by simp [hx])
      have hndmid : (r.target :: (pre ++ rest2).map HashElem.target).Nodup := by
        have h1 := hnd
        rw [List.map_append, List.map_cons, List.nodup_middle] at h1
        simpa [List.map_append] using h1
      have hpre : noTid pre r.target := by
        intro x hx hcontra
        exact (List.nodup_cons.mp hndmid).1
          (by rw [List.map_append]
              exact List.mem_append_left _ (hcontra ▸ List.mem_map_of_mem HashElem.target hx))
      have hpost : noTid rest2 r.target := by
        intro x hx hcontra
        exact (List.nodup_cons.mp hndmid).1
          (by rw [List.map_append]
              exact List.mem_append_right _ (hcontra ▸ List.mem_map_of_mem HashElem.target hx))
      have hnd2 : ((pre ++ rest2).map HashElem.target).Nodup := (List.nodup_cons.mp hndmid).2
      obtain ⟨rt, racts, ridx, rcur, rpz, rlk⟩ := r
      simp only at hlk hcur haid hot hpre hpost
      subst hlk
      subst hcur
      simp only [updateOuterF, getElem?_at_append pre _ rest2]
      cases rpz with
      | true =>
        rw [if_pos (show (⟨rt, racts, ridx, none, true, false⟩ : HashElem).paused = true from rfl)]
        rw [findElem_focus pre ⟨rt, racts, ridx, none, true, false⟩ rest2 pool log rt rfl hpre]
        simp only []
        by_cases hlen : racts.length = 0
        · rw [if_pos (show (⟨rt, racts, ridx, none, true, false⟩ : HashElem).actions.length = 0
            from hlen)]
          simp only [deleteHashElement,
            findElem_focus pre ⟨rt, racts, ridx, none, true, false⟩ rest2 pool log rt rfl hpre]
          simp only [Bool.false_eq_true, if_false]
          rw [eraseP_focus pre ⟨rt, racts, ridx, none, true, false⟩ rest2 rt rfl hpre]
          rw [ih pre (pool ++ [resetElem]) log ifuel f hnd2 hrec2 hif2 (by simp at hof ⊢; omega)]
          simp [survive, poolAdd, firedLog, hlen, List.filterMap_cons]
        · rw [if_neg (show ¬ ((⟨rt, racts, ridx, none, true, false⟩ :
              HashElem).actions.length = 0) from hlen)]
          have hconv : pre ++ (⟨rt, racts, ridx, none, true, false⟩ : HashElem) :: rest2 =
              (pre ++ [⟨rt, racts, ridx, none, true, false⟩]) ++ rest2 := by simp
          have hlen2 : pre.length + 1 = (pre ++ [(⟨rt, racts, ridx, none, true, false⟩ : HashElem)]).length := by
            simp
          rw [show (⟨pre ++ (⟨rt, racts, ridx, none, true, false⟩ : HashElem) :: rest2, pool, log⟩ : AMState) =
            ⟨(pre ++ [⟨rt, racts, ridx, none, true, false⟩]) ++ rest2, pool, log⟩ by rw [hconv], hlen2]
          have hstep := ih (pre ++ [(⟨rt, racts, ridx, none, true, false⟩ : HashElem)]) pool log
            ifuel f (by simpa using hnd) hrec2 hif2 (by simp at hof ⊢; omega)
          rw [hstep]
          simp [survive, poolAdd, firedLog, hlen, List.filterMap_cons]
      | false =>
        rw [if_neg (show ¬ (⟨rt, racts, ridx, none, false, false⟩ : HashElem).paused = true by
          simp)]
        rw [updateElem_focus pre ⟨rt, racts, ridx, none, false, false⟩ rest2 pool log rt _
          rfl hpre hpost]
        rw [show (⟨rt, racts, 0, none, false, true⟩ : HashElem) =
          (⟨rt, ([] : List Act) ++ racts, ((([] : List Act).length : Nat) : Int), none, false,
            true⟩ : HashElem) by norm_num]
        rw [updateInner_run racts [] ifuel pre rest2 pool log rt false true hpre hpost
          (by simpa using haid) (fun x hx => hot x hx)
          (hif (⟨rt, racts, ridx, none, false, false⟩ : HashElem) (by simp))]
        rw [show (⟨rt, ([] : List Act) ++ racts.filter (fun x => !x.isDone),
            (((([] : List Act).length + (racts.filter (fun x => !x.isDone)).length : Nat)) : Int),
            none, false, true⟩ : HashElem) =
          (⟨rt, racts.filter (fun x => !x.isDone),
            (((racts.filter (fun x => !x.isDone)).length : Nat) : Int), none, false,
            true⟩ : HashElem) by norm_num]
        rw [updateElem_focus pre ⟨rt, racts.filter (fun x => !x.isDone),
          (((racts.filter (fun x => !x.isDone)).length : Nat) : Int), none, false, true⟩ rest2
          pool (log ++ racts.map Act.aid) rt _ rfl hpre hpost]
        rw [findElem_focus pre ⟨rt, racts.filter (fun x => !x.isDone),
          (((racts.filter (fun x => !x.isDone)).length : Nat) : Int), none, false, false⟩ rest2
          pool (log ++ racts.map Act.aid) rt rfl hpre]
        simp only []
        by_cases hk : (racts.filter (fun x => !x.isDone)).length = 0
        · rw [if_pos (show (⟨rt, racts.filter (fun x => !x.isDone),
              (((racts.filter (fun x => !x.isDone)).length : Nat) : Int), none, false, false⟩ :
              HashElem).actions.length = 0 from hk)]
          simp only [deleteHashElement,
            findElem_focus pre ⟨rt, racts.filter (fun x => !x.isDone),
              (((racts.filter (fun x => !x.isDone)).length : Nat) : Int), none, false, false⟩ rest2
              pool (log ++ racts.map Act.aid) rt rfl hpre]
          simp only [Bool.false_eq_true, if_false]
          rw [eraseP_focus pre ⟨rt, racts.filter (fun x => !x.isDone),
            (((racts.filter (fun x => !x.isDone)).length : Nat) : Int), none, false, false⟩ rest2
            rt rfl hpre]
          have hstep := ih pre (pool ++ [resetElem]) (log ++ racts.map Act.aid) ifuel f hnd2 hrec2
            hif2 (by simp at hof ⊢; omega)
          rw [hstep]
          simp [survive, poolAdd, firedLog, hk, List.filterMap_cons]
        · rw [if_neg (show ¬ ((⟨rt, racts.filter (fun x => !x.isDone),
              (((racts.filter (fun x => !x.isDone)).length : Nat) : Int), none, false, false⟩ :
              HashElem).actions.length = 0) from hk)]
          have hconv2 : pre ++ (⟨rt, racts.filter (fun x => !x.isDone),
              (((racts.filter (fun x => !x.isDone)).length : Nat) : Int), none, false, false⟩ :
              HashElem) :: rest2 =
              (pre ++ [(⟨rt, racts.filter (fun x => !x.isDone),
                (((racts.filter (fun x => !x.isDone)).length : Nat) : Int), none, false, false⟩ :
                HashElem)]) ++ rest2 := by simp
          have hlen2 : pre.length + 1 = (pre ++ [(⟨rt, racts.filter (fun x => !x.isDone),
              (((racts.filter (fun x => !x.isDone)).length : Nat) : Int), none, false, false⟩ :
              HashElem)]).length := by simp
          rw [show (⟨pre ++ (⟨rt, racts.filter (fun x => !x.isDone),
              (((racts.filter (fun x => !x.isDone)).length : Nat) : Int), none, false, false⟩ :
              HashElem) :: rest2, pool, log ++ racts.map Act.aid⟩ : AMState) =
            ⟨(pre ++ [(⟨rt, racts.filter (fun x => !x.isDone),
              (((racts.filter (fun x => !x.isDone)).length : Nat) : Int), none, false, false⟩ :
              HashElem)]) ++ rest2, pool, log ++ racts.map Act.aid⟩ by rw [hconv2], hlen2]
          have hstep := ih (pre ++ [(⟨rt, racts.filter (fun x => !x.isDone),
              (((racts.filter (fun x => !x.isDone)).length : Nat) : Int), none, false, false⟩ :
              HashElem)]) pool (log ++ racts.map Act.aid) ifuel f
            (by simpa using hnd) hrec2 hif2 (by simp at hof ⊢; omega)
          rw [hstep]
          simp [survive, poolAdd, firedLog, hk, List.filterMap_cons]


/-! ## Claim C3 -/

/-- C3: during ActionManager.update(dt), even when a CallFunc callback
invoked from an action's step removes the currently iterated action of
its own record (removeAction adjusts the record's in-progress iteration
index), every action that was present when the pass started - in the
same record and in every other record - is stepped exactly once in that
same update call: its identity appears in the step log exactly one more
time than before. -/

theorem c3_reentrant_remove_steps_once (st : AMState) (dt : ℚ) (ifuel ofuel : Nat) (aid : Nat)
    (hnd : (st.elems.map HashElem.target).Nodup)
    (hrec : ∀ r ∈ st.elems, r.lock = false ∧ r.currentAction = none ∧ r.paused = false ∧
        ∀ x ∈ r.actions, x.otarget = r.target)
    (haids : ((st.elems.map (fun r => r.actions.map Act.aid)).join).Nodup)
    (hif : ∀ r ∈ st.elems, r.actions.length + 1 ≤ ifuel)
    (hof : 2 * st.elems.length + 1 ≤ ofuel)
    (hmem : aid ∈ (st.elems.map (fun r => r.actions.map Act.aid)).join) :
    (AMupdate dt ifuel ofuel st).log.count aid = st.log.count aid + 1 := by
  obtain ⟨elems, pool, log⟩ := st
  simp only at hnd hrec haids hif hof hmem
  have hnodup_each : ∀ r ∈ elems, (r.actions.map Act.aid).Nodup := by
    intro r hr
    exact (List.nodup_join.mp haids).1 (r.actions.map Act.aid)
      (List.mem_map_of_mem (fun r => r.actions.map Act.aid) hr)
  have hrun := updateOuter_run elems [] pool log ifuel ofuel (by simpa using hnd)
    (fun r hr => ⟨(hrec r hr).1, (hrec r hr).2.1, hnodup_each r hr, (hrec r hr).2.2.2⟩)
    hif hof
  have hrw : AMupdate dt ifuel ofuel ⟨elems, pool, log⟩ =
      ⟨[] ++ elems.filterMap survive, pool ++ (elems.map poolAdd).join,
        log ++ (elems.map firedLog).join⟩ := hrun
  rw [hrw]
  simp only [List.count_append]
  have hfired : elems.map firedLog = elems.map (fun r => r.actions.map Act.aid) := by
    apply List.map_congr_left
    intro r hr
    simp [firedLog, (hrec r hr).2.2.1]
  rw [hfired]
  have hone : ((elems.map (fun r => r.actions.map Act.aid)).join).count aid = 1 :=
    List.count_eq_one_of_mem haids hmem
  omega

/-- Witness for C3: a manager with two targets - target 7 holds a
generic action (id 1), a CallFunc that removes itself via removeAction
(id 2) and another generic action (id 3); target 8 holds a generic
action (id 4).  After one update pass, action 3 (the sibling after the
re-entrant removal) was stepped exactly once. -/
theorem c3_reentrant_remove_steps_once_witness :
    (AMupdate 1 5 9 ⟨[
        ⟨7, [⟨1, 0, 7, ActKind.plain false⟩, ⟨2, 0, 7, ActKind.callfunc CbOp.removeSelf⟩,
             ⟨3, 0, 7, ActKind.plain false⟩], 0, none, false, false⟩,
        ⟨8, [⟨4, 0, 8, ActKind.plain false⟩], 0, none, false, false⟩], [], []⟩).log.count 3 =
      1 := by
  have h := c3_reentrant_remove_steps_once ⟨[
      ⟨7, [⟨1, 0, 7, ActKind.plain false⟩, ⟨2, 0, 7, ActKind.callfunc CbOp.removeSelf⟩,
           ⟨3, 0, 7, ActKind.plain false⟩], 0, none, false, false⟩,
      ⟨8, [⟨4, 0, 8, ActKind.plain false⟩], 0, none, false, false⟩], [], []⟩ 1 5 9 3
    (by decide) (by decide) (by decide) (by decide) (by decide) (by decide)
  simpa using h

/-! ## Claim C4 -/

/-- A record exists for a target iff it has at least one action: the
record half - every record in the manager is nonempty. -/
abbrev RecInv (st : AMState) : Prop := ∀ r ∈ st.elems, r.actions ≠ []

theorem find?_decomp {α : Type} (p : α → Bool) (l : List α) (a : α) (h : l.find? p = some a) :
    ∃ l1 l2, l = l1 ++ a :: l2 ∧ ∀ x ∈ l1, p x = false := by
  induction l with
  | nil => simp [List.find?] at h
  | cons x xs ih =>
    by_cases hx : p x = true
    · refine ⟨[], xs, ?_, by simp⟩
      have : some x = some a := by rw [← List.find?_cons_of_pos xs hx, h]
      simp at this
      simp [this]
    · have hx2 : p x = false := by simpa using hx
      rw [List.find?_cons_of_neg xs hx] at h
      obtain ⟨l1, l2, rfl, hl1⟩ := ih h
      exact ⟨x :: l1, l2, rfl, by
        intro y hy
        rcases List.mem_cons.mp hy with rfl | hy2
        · simpa using hx
        · exact hl1 y hy2⟩

theorem focus_of_findElem (st : AMState) (tid : Int) (r : HashElem)
    (h : findElem st tid = some r) (hnd : (st.elems.map HashElem.target).Nodup) :
    ∃ pre post, st.elems = pre ++ r :: post ∧ noTid pre tid ∧ noTid post tid ∧
      r.target = tid := by
  have hrt : r.target = tid := by
    have := List.find?_some h
    simpa using this
  obtain ⟨pre, post, hshape, hpre⟩ := find?_decomp _ _ _ h
  refine ⟨pre, post, hshape, ?_, ?_, hrt⟩
  · intro x hx
    have := hpre x hx
    simpa using this
  · intro x hx hcontra
    rw [hshape, List.map_append, List.map_cons, List.nodup_middle, List.nodup_cons] at hnd
    apply hnd.1
    apply List.mem_append_right
    rw [hrt, ← hcontra]
    exact List.mem_map_of_mem HashElem.target hx

theorem addAction_inv (st : AMState) (a : Act) (tid : Int) (p : Bool) (hInv : RecInv st) :
    RecInv (addAction st a tid p) := by
  unfold addAction
  cases hfind : findElem st tid with
  | some r0 =>
    intro r hr
    simp only [updateElem, List.mem_map] at hr
    obtain ⟨r0', hr0', rfl⟩ := hr
    by_cases ht : (r0'.target == tid) = true
    · simp [ht]
    · simp only [ht, Bool.false_eq_true, if_false]
      exact hInv r0' hr0'
  | none =>
    intro r hr
    simp only [updateElem, List.mem_map] at hr
    obtain ⟨r0', hr0', rfl⟩ := hr
    by_cases ht : (r0'.target == tid) = true
    · simp [ht]
    · simp only [ht, Bool.false_eq_true, if_false]
      rcases List.mem_append.mp hr0' with h1 | h2
      · exact hInv r0' h1
      · exfalso
        have : r0'.target = tid := by
          rcases List.mem_singleton.mp h2 with rfl
          rfl
        simp [this] at ht

theorem deleteHashElement_focus (pre : List HashElem) (r : HashElem) (post : List HashElem)
    (pool : List HashElem) (log : List Nat) (tid : Int)
    (hr : r.target = tid) (hpre : noTid pre tid) (hlk : r.lock = false) :
    deleteHashElement ⟨pre ++ r :: post, pool, log⟩ tid =
      ⟨pre ++ post, pool ++ [resetElem], log⟩ := by
  simp only [deleteHashElement, findElem_focus pre r post pool log tid hr hpre, hlk,
    Bool.false_eq_true, if_false]
  rw [eraseP_focus pre r post tid hr hpre]

theorem removeActionByTag_inv (st : AMState) (tag tid : Int) (hInv : RecInv st)
    (hnd : (st.elems.map HashElem.target).Nodup)
    (hlock : ∀ r ∈ st.elems, r.lock = false) :
    RecInv (removeActionByTag st tag tid) := by
  cases hfind : findElem st tid with
  | none => simp only [removeActionByTag, hfind]; exact hInv
  | some r =>
    cases hscan : scanIdx (fun a => a.tag == tag && a.otarget == tid) r.actions with
    | none => simp only [removeActionByTag, hfind, hscan]; exact hInv
    | some i =>
      simp only [removeActionByTag, hfind, hscan]
      obtain ⟨pre, post, hshape, hpre, hpost, hrt⟩ := focus_of_findElem st tid r hfind hnd
      have hlk : r.lock = false := hlock r (by rw [hshape]; simp)
      obtain ⟨elems, pool, log⟩ := st
      simp only at hshape
      subst hshape
      unfold removeActionAtIndex
      rw [updateElem_focus pre r post pool log tid _ hrt hpre hpost]
      simp only []
      by_cases hlen : (r.actions.eraseIdx i).length = 0
      · rw [findElem_focus pre ⟨r.target, r.actions.eraseIdx i,
          if (i : Int) ≤ r.actionIndex then r.actionIndex - 1 else r.actionIndex,
          r.currentAction, r.paused, r.lock⟩ post pool log tid hrt hpre]
        simp only []
        rw [if_pos hlen]
        rw [deleteHashElement_focus pre ⟨r.target, r.actions.eraseIdx i,
          if (i : Int) ≤ r.actionIndex then r.actionIndex - 1 else r.actionIndex,
          r.currentAction, r.paused, r.lock⟩ post pool log tid hrt hpre hlk]
        intro x hx
        have : x ∈ pre ++ r :: post := by
          rcases List.mem_append.mp hx with h1 | h2
          · exact List.mem_append_left _ h1
          · exact List.mem_append_right _ (by simp [h2])
        exact hInv x this
      · rw [findElem_focus pre ⟨r.target, r.actions.eraseIdx i,
          if (i : Int) ≤ r.actionIndex then r.actionIndex - 1 else r.actionIndex,
          r.currentAction, r.paused, r.lock⟩ post pool log tid hrt hpre]
        simp only []
        rw [if_neg hlen]
        intro x hx
        simp only [List.mem_append, List.mem_cons] at hx
        rcases hx with h1 | h2 | h3
        · exact hInv x (by simp [h1])
        · subst h2
          intro hc
          have hc2 : r.actions.eraseIdx i = [] := hc
          exact hlen (by rw [hc2]; rfl)
        · exact hInv x (by simp [h3])

theorem removeAllActionsFromTarget_inv (st : AMState) (tid : Int) (hInv : RecInv st)
    (hnd : (st.elems.map HashElem.target).Nodup)
    (hlock : ∀ r ∈ st.elems, r.lock = false) :
    RecInv (removeAllActionsFromTarget st tid) := by
  cases hfind : findElem st tid with
  | none => simp only [removeAllActionsFromTarget, hfind]; exact hInv
  | some r =>
    simp only [removeAllActionsFromTarget, hfind]
    obtain ⟨pre, post, hshape, hpre, hpost, hrt⟩ := focus_of_findElem st tid r hfind hnd
    have hlk : r.lock = false := hlock r (by rw [hshape]; simp)
    obtain ⟨elems, pool, log⟩ := st
    simp only at hshape
    subst hshape
    rw [updateElem_focus pre r post pool log tid _ hrt hpre hpost]
    rw [deleteHashElement_focus pre ⟨r.target, ([] : List Act), r.actionIndex, r.currentAction,
      r.paused, r.lock⟩ post pool log tid hrt hpre hlk]
    intro x hx
    have : x ∈ pre ++ r :: post := by
      rcases List.mem_append.mp hx with h1 | h2
      · exact List.mem_append_left _ h1
      · exact List.mem_append_right _ (by simp [h2])
    exact hInv x this

theorem deleteHashElement_locked (st : AMState) (tid : Int) (r : HashElem)
    (h : findElem st tid = some r) (hl : r.lock = true) :
    deleteHashElement st tid = st := by
  simp [deleteHashElement, h, hl]

theorem deleteHashElement_unlocked (st : AMState) (tid : Int) (r : HashElem)
    (h : findElem st tid = some r) (hl : r.lock = false) :
    (deleteHashElement st tid).pool = st.pool ++ [resetElem] ∧
    (deleteHashElement st tid).elems = st.elems.eraseP (fun x => x.target == tid) := by
  simp [deleteHashElement, h, hl]

theorem AMupdate_inv (st : AMState) (dt : ℚ) (ifuel ofuel : Nat)
    (hnd : (st.elems.map HashElem.target).Nodup)
    (hrec : ∀ r ∈ st.elems, r.lock = false ∧ r.currentAction = none ∧
        (r.actions.map Act.aid).Nodup ∧ ∀ x ∈ r.actions, x.otarget = r.target)
    (hif : ∀ r ∈ st.elems, r.actions.length + 1 ≤ ifuel)
    (hof : 2 * st.elems.length + 1 ≤ ofuel) :
    RecInv (AMupdate dt ifuel ofuel st) := by
  obtain ⟨elems, pool, log⟩ := st
  simp only at hnd hrec hif hof
  have hrun := updateOuter_run elems [] pool log ifuel ofuel (by simpa using hnd) hrec hif hof
  have hrw : AMupdate dt ifuel ofuel ⟨elems, pool, log⟩ =
      ⟨[] ++ elems.filterMap survive, pool ++ (elems.map poolAdd).join,
        log ++ (elems.map firedLog).join⟩ := hrun
  rw [hrw]
  intro r hr
  simp only [List.nil_append] at hr
  obtain ⟨r0, hr0, hs⟩ := List.mem_filterMap.mp hr
  unfold survive at hs
  by_cases hp : r0.paused = true
  · rw [if_pos hp] at hs
    by_cases h0 : r0.actions.length = 0
    · rw [if_pos h0] at hs; cases hs
    · rw [if_neg h0] at hs
      have : r0 = r := by simpa using hs
      subst this
      intro hc
      exact h0 (by rw [hc]; rfl)
  · rw [if_neg hp] at hs
    simp only [] at hs
    by_cases h0 : (r0.actions.filter (fun x => !x.isDone)).length = 0
    · rw [if_pos h0] at hs; cases hs
    · rw [if_neg h0] at hs
      have : (⟨r0.target, r0.actions.filter (fun x => !x.isDone),
          ((r0.actions.filter (fun x => !x.isDone)).length : Int), none, false, false⟩ :
          HashElem) = r := by simpa using hs
      subst this
      intro hc
      have hc2 : r0.actions.filter (fun x => !x.isDone) = [] := hc
      exact h0 (by rw [hc2]; rfl)


/-- C4 (counterexample): the claim says that after ANY public manager
operation a record exists iff its target still has at least one action.
But removeAction only splices the action out and never deletes the
record: add one action to a fresh target, remove it with removeAction,
and the target's record still exists with an empty action list. -/
theorem c4_counterexample :
    (findElem (removeAction (addAction ⟨[], [], []⟩ ⟨1, 0, 0, ActKind.plain false⟩ 7 false)
        7 1) 7).isSome = true ∧
    (findElem (removeAction (addAction ⟨[], [], []⟩ ⟨1, 0, 0, ActKind.plain false⟩ 7 false)
        7 1) 7).map HashElem.actions = some [] := by
  decide

/-- C4 (amended): after addAction, removeActionByTag,
removeAllActionsFromTarget and update complete, every record still held
by the manager has at least one action - a record whose list becomes
empty during these operations is deleted and a reset record recycled
into the pool at that moment, except when the record is locked
mid-iteration, in which case deleteHashElement is a no-op and the
deletion happens when the lock is released (update's per-record cleanup
after unlocking).  removeAction however only splices the action out:
it never deletes the record, which an empty record until the next
update pass (the counterexample); update restores the invariant even
from states containing empty records. -/
theorem c4_amended_record_invariant :
    (∀ (st : AMState) (a : Act) (tid : Int) (p : Bool),
      RecInv st → RecInv (addAction st a tid p)) ∧
    (∀ (st : AMState) (tag tid : Int),
      RecInv st → (st.elems.map HashElem.target).Nodup →
      (∀ r ∈ st.elems, r.lock = false) → RecInv (removeActionByTag st tag tid)) ∧
    (∀ (st : AMState) (tid : Int),
      RecInv st → (st.elems.map HashElem.target).Nodup →
      (∀ r ∈ st.elems, r.lock = false) → RecInv (removeAllActionsFromTarget st tid)) ∧
    (∀ (st : AMState) (dt : ℚ) (ifuel ofuel : Nat),
      (st.elems.map HashElem.target).Nodup →
      (∀ r ∈ st.elems, r.lock = false ∧ r.currentAction = none ∧
        (r.actions.map Act.aid).Nodup ∧ ∀ x ∈ r.actions, x.otarget = r.target) →
      (∀ r ∈ st.elems, r.actions.length + 1 ≤ ifuel) →
      2 * st.elems.length + 1 ≤ ofuel →
      RecInv (AMupdate dt ifuel ofuel st)) ∧
    (∀ (st : AMState) (tid : Int) (r : HashElem),
      findElem st tid = some r → r.lock = true → deleteHashElement st tid = st) ∧
    (∀ (st : AMState) (tid : Int) (r : HashElem),
      findElem st tid = some r → r.lock = false →
      (deleteHashElement st tid).pool = st.pool ++ [resetElem] ∧
      (deleteHashElement st tid).elems = st.elems.eraseP (fun x => x.target == tid)) :=
  ⟨addAction_inv, removeActionByTag_inv, removeAllActionsFromTarget_inv,
    AMupdate_inv, deleteHashElement_locked, deleteHashElement_unlocked⟩

/-- Witness for C4 (amended): concrete instances of each conjunct on a
one-record manager, plus the locked-record no-op. -/
theorem c4_amended_record_invariant_witness :
    RecInv (addAction ⟨[⟨7, [⟨1, 0, 7, ActKind.plain false⟩], 0, none, false, false⟩], [], []⟩
      ⟨2, 0, 0, ActKind.plain false⟩ 7 false) ∧
    RecInv (removeActionByTag
      ⟨[⟨7, [⟨1, 0, 7, ActKind.plain false⟩], 0, none, false, false⟩], [], []⟩ 0 7) ∧
    RecInv (removeAllActionsFromTarget
      ⟨[⟨7, [⟨1, 0, 7, ActKind.plain false⟩], 0, none, false, false⟩], [], []⟩ 7) ∧
    RecInv (AMupdate 1 3 3
      ⟨[⟨7, [⟨1, 0, 7, ActKind.plain false⟩], 0, none, false, false⟩], [], []⟩) ∧
    deleteHashElement ⟨[⟨7, [⟨1, 0, 7, ActKind.plain false⟩], 0, none, false, true⟩], [], []⟩ 7 =
      ⟨[⟨7, [⟨1, 0, 7, ActKind.plain false⟩], 0, none, false, true⟩], [], []⟩ ∧
    (deleteHashElement ⟨[⟨7, [⟨1, 0, 7, ActKind.plain false⟩], 0, none, false, false⟩], [], []⟩
      7).pool = ([] : List HashElem) ++ [resetElem] := by
  refine ⟨?_, ?_, ?_, ?_, ?_, ?_⟩
  · exact c4_amended_record_invariant.1 _ _ 7 false (by decide)
  · exact c4_amended_record_invariant.2.1 _ 0 7 (by decide) (by decide) (by decide)
  · exact c4_amended_record_invariant.2.2.1 _ 7 (by decide) (by decide) (by decide)
  · exact c4_amended_record_invariant.2.2.2.1 _ 1 3 3 (by decide) (by decide) (by decide)
      (by decide)
  · exact c4_amended_record_invariant.2.2.2.2.1 _ 7
      ⟨7, [⟨1, 0, 7, ActKind.plain false⟩], 0, none, false, true⟩ (by decide) (by decide)
  · exact (c4_amended_record_invariant.2.2.2.2.2 _ 7
      ⟨7, [⟨1, 0, 7, ActKind.plain false⟩], 0, none, false, false⟩ (by decide) (by decide)).1


/-! ## Claim C7 -/

/-! ## ActionInterval (src/Action.ts) -/

/-- An easing object: the forward curve applied by easing(dt), and the
curve its reverse() returns (the source pairs easeIn/easeOut style
singletons, each naming the other as its reverse). -/
structure Easing where
  fwd : ℚ → ℚ
  bwd : ℚ → ℚ

/-- Easing.reverse swaps the pair. -/
def Easing.reverse (e : Easing) : Easing := ⟨e.bwd, e.fwd⟩

/-- $computeEaseTime: apply the easing list to dt left to right (the
empty list returns dt unchanged). -/
def computeEaseTime (es : List Easing) (dt : ℚ) : ℚ :=
  es.foldl (fun t e => e.fwd t) dt

/-- ActionInterval state: $duration (as set by $initWithDuration),
$elapsed, $firstTick, the easing list, the optional $times decoration
(undefined until repeat is used), $forever and $speed. -/
structure AInterval where
  duration : ℚ
  elapsed : ℚ
  firstTick : Bool
  easeList : List Easing
  times : Option Nat
  forever : Bool
  speed : ℚ

/-- The constructor with $initWithDuration: a zero duration is replaced
by FLT_EPSILON; elapsed starts at 0 with firstTick set. -/
def mkActionInterval (d : ℚ) : AInterval :=
  { duration := if d = 0 then FLT_EPSILON else d
    elapsed := 0, firstTick := true, easeList := [], times := none
    forever := false, speed := 1 }

/-- easing(...): install the easing list. -/
def AInterval.withEasing (s : AInterval) (es : List Easing) : AInterval :=
  { s with easeList := es }

/-- startWithTarget: reset elapsed and firstTick. -/
def AInterval.start (s : AInterval) : AInterval :=
  { s with elapsed := 0, firstTick := true }

/-- The $times > 1 test of step ($times undefined compares false). -/
def AInterval.timesGt1 (s : AInterval) : Bool :=
  match s.times with
  | some n => decide (n > 1)
  | none => false

/-- step(dt): on the first tick after start reset elapsed to 0
(discarding dt), otherwise accumulate; clamp elapsed over the duration
(floored at FLT_EPSILON) to [0,1] and hand it to update, whose argument
is recorded; when a repeat decoration is active and the cycle finished,
restart and re-step with the carried remainder.  The recursion depth is
bounded by the fuel; for an undecorated action the tail never runs. -/
def stepF : Nat → AInterval → ℚ → AInterval × List ℚ
  | 0, s, _ => (s, [])
  | fuel + 1, s, dt =>
    let s1 := if s.firstTick then { s with firstTick := false, elapsed := 0 }
              else { s with elapsed := s.elapsed + dt }
    let t := s1.elapsed / (if s1.duration > FLT_EPSILON then s1.duration else FLT_EPSILON)
    let t2 := if 1 > t then t else 1
    let arg := if t2 > 0 then t2 else 0
    if s1.timesGt1 && decide (s1.elapsed ≥ s1.duration) then
      let s2 := if !s1.forever then { s1 with times := s1.times.map (fun n => n - 1) } else s1
      let s3 := AInterval.start s2
      let r := stepF fuel s3 (s1.elapsed - s1.duration)
      (r.1, arg :: r.2)
    else (s1, [arg])

/-- Drive an interval action with successive step(dt) calls, collecting
every argument handed to update, in order. -/
def runStepsF (s : AInterval) : List ℚ → AInterval × List ℚ
  | [] => (s, [])
  | dt :: rest =>
    let r1 := stepF (s.times.getD 1 + 1) s dt
    let r2 := runStepsF r1.1 rest
    (r2.1, r1.2 ++ r2.2)

/-- The value a leaf update implementation (MoveBy, RotateBy, ScaleTo,
BezierBy, Sequence, ...) feeds into its effect: each of them first maps
its argument through $computeEaseTime. -/
def leafUpdateInput (es : List Easing) (t : ℚ) : ℚ := computeEaseTime es t

/-- Evaluation of the step sequence for an undecorated (no repeat)
interval action that is past its first tick. -/
theorem runStepsF_plain (es : List Easing) (D : ℚ) (dts : List ℚ) :
    ∀ e : ℚ,
    runStepsF ⟨D, e, false, es, none, false, 1⟩ dts =
      (⟨D, e + dts.sum, false, es, none, false, 1⟩,
        ((dts.scanl (fun a b => a + b) e).tail).map (fun x =>
          let t := x / (if D > FLT_EPSILON then D else FLT_EPSILON)
          let t2 := if 1 > t then t else 1
          if t2 > 0 then t2 else 0)) := by
  induction dts with
  | nil => intro e; simp [runStepsF]
  | cons dt rest ih =>
    intro e
    simp only [runStepsF, stepF, AInterval.timesGt1]
    norm_num
    rw [ih (e + dt)]
    simp [List.scanl, add_assoc]
    cases rest <;> simp [List.scanl]

theorem clampIte_eq (t : ℚ) :
    (if 0 < (if t < 1 then t else 1) then (if t < 1 then t else 1) else 0) =
      max 0 (min t 1) := by
  rcases lt_or_le t 1 with h1 | h1 <;> rcases lt_or_le 0 t with h0 | h0 <;>
    simp [min_def, max_def] <;> split_ifs <;> linarith

theorem divisorIte_eq (D : ℚ) :
    (if FLT_EPSILON < D then D else FLT_EPSILON) = max FLT_EPSILON D := by
  rcases lt_or_le FLT_EPSILON D with h | h
  · simp [max_def, h, le_of_lt h]
  · rw [if_neg (not_lt.mpr h), max_eq_left h]

/-- C7: for a base (undecorated) interval action, the first step(dt)
after startWithTarget resets elapsed to 0 and discards that dt; each
later step(dt) adds dt to elapsed; every update receives
clamp(elapsed / max(duration, FLT_EPSILON), 0, 1); the leaf update
implementations pass that value through the easing transforms composed
left to right before applying their effect; and $initWithDuration
replaces a zero duration by FLT_EPSILON, the divisor staying positive
so no division by zero occurs. -/
theorem c7_interval_step_pipeline (d : ℚ) (es : List Easing) (dt0 : ℚ) (dts : List ℚ) :
    (mkActionInterval d).duration = (if d = 0 then FLT_EPSILON else d) ∧
    0 < max FLT_EPSILON (mkActionInterval d).duration ∧
    (runStepsF (((mkActionInterval d).withEasing es).start) (dt0 :: dts)).1.elapsed =
      dts.sum ∧
    (runStepsF (((mkActionInterval d).withEasing es).start) (dt0 :: dts)).2 =
      (dts.scanl (fun a b => a + b) 0).map (fun e =>
        max 0 (min (e / max FLT_EPSILON (mkActionInterval d).duration) 1)) ∧
    ((runStepsF (((mkActionInterval d).withEasing es).start) (dt0 :: dts)).2).map
        (leafUpdateInput es) =
      ((runStepsF (((mkActionInterval d).withEasing es).start) (dt0 :: dts)).2).map
        (fun t => es.foldl (fun x g => g.fwd x) t) := by
  have hrun : runStepsF (((mkActionInterval d).withEasing es).start) (dt0 :: dts) =
      (⟨if d = 0 then FLT_EPSILON else d, 0 + dts.sum, false, es, none, false, 1⟩,
        (if 0 < (if ((0 : ℚ) / (if FLT_EPSILON < (if d = 0 then FLT_EPSILON else d)
              then (if d = 0 then FLT_EPSILON else d) else FLT_EPSILON)) < 1
            then ((0 : ℚ) / (if FLT_EPSILON < (if d = 0 then FLT_EPSILON else d)
              then (if d = 0 then FLT_EPSILON else d) else FLT_EPSILON)) else 1)
          then (if ((0 : ℚ) / (if FLT_EPSILON < (if d = 0 then FLT_EPSILON else d)
              then (if d = 0 then FLT_EPSILON else d) else FLT_EPSILON)) < 1
            then ((0 : ℚ) / (if FLT_EPSILON < (if d = 0 then FLT_EPSILON else d)
              then (if d = 0 then FLT_EPSILON else d) else FLT_EPSILON)) else 1) else 0) ::
          ((dts.scanl (fun a b => a + b) 0).tail).map (fun x =>
            let t := x / (if (if d = 0 then FLT_EPSILON else d) > FLT_EPSILON
              then (if d = 0 then FLT_EPSILON else d) else FLT_EPSILON)
            let t2 := if 1 > t then t else 1
            if t2 > 0 then t2 else 0)) := by
    simp only [runStepsF, stepF, mkActionInterval, AInterval.withEasing, AInterval.start,
      AInterval.timesGt1]
    norm_num
    rw [runStepsF_plain]
    simp
  rw [hrun]
  refine ⟨rfl, lt_of_lt_of_le (by norm_num [FLT_EPSILON]) (le_max_left _ _), by simp, ?_,
    by rfl⟩
  dsimp only
  rw [show (dts.scanl (fun a b => a + b) 0).map (fun e =>
      max 0 (min (e / max FLT_EPSILON (mkActionInterval d).duration) 1)) =
    (fun e => max 0 (min (e / max FLT_EPSILON (if d = 0 then FLT_EPSILON else d)) 1)) 0 ::
      ((dts.scanl (fun a b => a + b) 0).tail).map (fun e =>
        max 0 (min (e / max FLT_EPSILON (if d = 0 then FLT_EPSILON else d)) 1)) by
    cases dts <;> simp [List.scanl, mkActionInterval]]
  congr 1
  · rw [divisorIte_eq, clampIte_eq]
  · apply List.map_congr_left
    intro x hx
    dsimp only
    rw [show (if (if d = 0 then FLT_EPSILON else d) > FLT_EPSILON
        then (if d = 0 then FLT_EPSILON else d) else FLT_EPSILON) =
      max FLT_EPSILON (if d = 0 then FLT_EPSILON else d) from divisorIte_eq _]
    rw [clampIte_eq]

/-! ## Sequence (src/Action.ts) -/

/-- Lifecycle calls a Sequence child receives: startWithTarget,
update(t), stop. -/
inductive CEv where
  | start
  | upd (t : ℚ)
  | stop
deriving DecidableEq

/-- A Sequence child as the Sequence observes it: the value of its
duration getter, the value of its times getter (1 when undecorated),
its isDone() answer (children driven only through update keep their
elapsed at 0, so a positive-duration child stays not-done), and the
log of lifecycle calls received. -/
structure SChild where
  duration : ℚ
  times : Nat
  done : Bool
  log : List CEv
deriving DecidableEq

/-- Record a lifecycle call on a child. -/
def SChild.send (c : SChild) (e : CEv) : SChild := { c with log := c.log ++ [e] }

/-- A fresh undecorated child. -/
def freshChild (d : ℚ) : SChild := ⟨d, 1, false, []⟩

/-- Sequence state: the two children, $duration (after the
constructor's $initWithDuration over the summed child durations),
$split, $last and the easing list.  split and last are only meaningful
after startWithTarget; the constructor leaves them at placeholder 0. -/
structure SeqAct where
  a : SChild
  b : SChild
  duration : ℚ
  split : ℚ
  last : Int
  ease : List Easing

/-- The Sequence constructor over two actions. -/
def mkSeq (a b : SChild) : SeqAct :=
  { a := a, b := b
    duration := if a.duration + b.duration = 0 then FLT_EPSILON else a.duration + b.duration
    split := 0, last := 0, ease := [] }

/-- Sequence.startWithTarget: split = first child's share of the total
duration, last = -1. -/
def seqStart (s : SeqAct) : SeqAct :=
  { s with split := s.a.duration / s.duration, last := -1 }

/-- locActions[found]. -/
def getChild (s : SeqAct) (found : Int) : SChild := if found = 0 then s.a else s.b

/-- Write child found back. -/
def setChild (s : SeqAct) (found : Int) (c : SChild) : SeqAct :=
  if found = 0 then { s with a := c } else { s with b := c }

/-- The tail of Sequence.update after the boundary blocks: early-return
when the found child is already the last one and done; otherwise start
it if newly active, scale the local time by its times getter, wrap with
JS-style mod 1 when above 1, update it and record found in last. -/
def seqDispatch (s : SeqAct) (found : Int) (newT : ℚ) (locLast : Int) : SeqAct :=
  let af := getChild s found
  if locLast = found ∧ af.done = true then s
  else
    let s1 := if locLast ≠ found then setChild s found ((getChild s found).send CEv.start)
              else s
    let af2 := getChild s1 found
    let nt := newT * (af2.times : ℚ)
    let v := if nt > 1 then nt - (⌊nt⌋ : ℚ) else nt
    let s2 := setChild s1 found ((getChild s1 found).send (CEv.upd v))
    { s2 with last := found }

/-- Sequence.update(dt): ease dt, pick the active side of the split,
replay the boundary effects (the b rewind when moving back below the
split; the synthetic start+update(1)+stop of a when a was never
sampled; a's final update(1)+stop when leaving a), then dispatch to
the active child. -/
def seqUpdate (s : SeqAct) (t0 : ℚ) : SeqAct :=
  let dt := computeEaseTime s.ease t0
  let locLast := s.last
  if dt < s.split then
    let newT := if s.split ≠ 0 then dt / s.split else 1
    let s1 := if locLast = 1 then { s with b := (s.b.send (CEv.upd 0)).send CEv.stop } else s
    seqDispatch s1 0 newT locLast
  else
    let newT := if s.split = 1 then 1 else (dt - s.split) / (1 - s.split)
    let s1 := if locLast = -1 then
        { s with a := ((s.a.send CEv.start).send (CEv.upd 1)).send CEv.stop } else s
    let s2 := if locLast = 0 then
        { s1 with a := (s1.a.send (CEv.upd 1)).send CEv.stop } else s1
    seqDispatch s2 1 newT locLast

theorem seqUpdate_after (s : SeqAct) (t : ℚ) (hease : s.ease = []) (hlast : s.last = 1)
    (ht : ¬ t < s.split) :
    (seqUpdate s t).a = s.a ∧ (seqUpdate s t).last = 1 ∧
    (seqUpdate s t).split = s.split ∧ (seqUpdate s t).ease = s.ease := by
  simp only [seqUpdate, computeEaseTime, hease, List.foldl_nil, hlast]
  rw [if_neg ht]
  norm_num [seqDispatch, getChild, setChild, hease]
  by_cases hd : s.b.done = true <;> simp [hd, hlast, hease]

theorem seqUpdate_below (s : SeqAct) (t : ℚ) (hease : s.ease = []) (hlast : s.last = 0)
    (ht : t < s.split) (hs0 : s.split ≠ 0) (hdone : s.a.done = false) (ht1 : s.a.times = 1)
    (hsp : 0 < s.split) :
    (seqUpdate s t).a = s.a.send (CEv.upd (t / s.split)) ∧ (seqUpdate s t).last = 0 ∧
    (seqUpdate s t).split = s.split ∧ (seqUpdate s t).ease = [] ∧ t / s.split < 1 := by
  have hv : t / s.split < 1 := by
    rw [div_lt_one hsp]; exact ht
  simp only [seqUpdate, computeEaseTime, hease, List.foldl_nil, hlast]
  rw [if_pos ht, if_pos hs0]
  simp only [seqDispatch, getChild, setChild]
  norm_num [hdone]
  rw [if_neg (show ¬ (t / s.split * ((s.a.times : ℚ)) > 1) by rw [ht1]; push_cast; rw [mul_one]; exact not_lt.mpr (le_of_lt hv))]
  rw [ht1]
  push_cast
  rw [mul_one]
  exact ⟨rfl, hease, hv⟩

theorem seqUpdate_first_below (s : SeqAct) (t : ℚ) (hease : s.ease = []) (hlast : s.last = -1)
    (ht : t < s.split) (hs0 : s.split ≠ 0) (ht1 : s.a.times = 1) (hsp : 0 < s.split) :
    (seqUpdate s t).a = (s.a.send CEv.start).send (CEv.upd (t / s.split)) ∧
    (seqUpdate s t).last = 0 ∧ (seqUpdate s t).split = s.split ∧
    (seqUpdate s t).ease = [] ∧ t / s.split < 1 ∧
    (seqUpdate s t).a.done = s.a.done ∧ (seqUpdate s t).a.times = 1 := by
  have hv : t / s.split < 1 := by
    rw [div_lt_one hsp]; exact ht
  simp only [seqUpdate, computeEaseTime, hease, List.foldl_nil, hlast]
  rw [if_pos ht, if_pos hs0]
  simp only [seqDispatch, getChild, setChild]
  norm_num
  rw [if_neg (show ¬ (t / s.split * (((s.a.send CEv.start).times : ℚ)) > 1) by
    simp only [SChild.send, ht1]; push_cast; rw [mul_one]; exact not_lt.mpr (le_of_lt hv))]
  simp only [SChild.send, ht1]
  push_cast
  rw [mul_one]
  exact ⟨rfl, hease, hv, trivial, trivial⟩

theorem seqUpdate_cross0 (s : SeqAct) (t : ℚ) (hease : s.ease = []) (hlast : s.last = 0)
    (ht : ¬ t < s.split) :
    (seqUpdate s t).a = (s.a.send (CEv.upd 1)).send CEv.stop ∧ (seqUpdate s t).last = 1 ∧
    (seqUpdate s t).split = s.split ∧ (seqUpdate s t).ease = [] := by
  simp only [seqUpdate, computeEaseTime, hease, List.foldl_nil, hlast]
  rw [if_neg ht]
  norm_num [seqDispatch, getChild, setChild, hease]

theorem seqUpdate_first_past (s : SeqAct) (t : ℚ) (hease : s.ease = []) (hlast : s.last = -1)
    (ht : ¬ t < s.split) :
    (seqUpdate s t).a = ((s.a.send CEv.start).send (CEv.upd 1)).send CEv.stop ∧
    (seqUpdate s t).last = 1 ∧ (seqUpdate s t).split = s.split ∧ (seqUpdate s t).ease = [] := by
  simp only [seqUpdate, computeEaseTime, hease, List.foldl_nil, hlast]
  rw [if_neg ht]
  norm_num [seqDispatch, getChild, setChild, hease]

/-- All events in a list are update calls with argument strictly below 1. -/
def lowUpd (us : List CEv) : Prop := ∀ e ∈ us, ∃ v, v < 1 ∧ e = CEv.upd v

theorem seq_frozen (ts : List ℚ) : ∀ s : SeqAct, s.ease = [] → s.last = 1 →
    (∀ t ∈ ts, ¬ t < s.split) →
    (ts.foldl seqUpdate s).a = s.a ∧ (ts.foldl seqUpdate s).last = 1 ∧
    (ts.foldl seqUpdate s).split = s.split ∧ (ts.foldl seqUpdate s).ease = [] := by
  induction ts with
  | nil => intro s he hl _; exact ⟨rfl, hl, rfl, he⟩
  | cons t rest ih =>
    intro s he hl hall
    obtain ⟨ha, hl1, hs1, he1⟩ := seqUpdate_after s t he hl (hall t (by simp))
    have h2 := ih (seqUpdate s t) (by rw [he1, he]) hl1
      (by intro x hx; rw [hs1]; exact hall x (by simp [hx]))
    simp only [List.foldl_cons]
    exact ⟨h2.1.trans ha, h2.2.1, h2.2.2.1.trans hs1, h2.2.2.2⟩

theorem seq_active (ts : List ℚ) : ∀ s : SeqAct, s.ease = [] → s.last = 0 →
    0 < s.split → s.a.done = false → s.a.times = 1 → List.Sorted (· ≤ ·) ts →
    ((∃ t ∈ ts, s.split ≤ t) →
      ∃ us, (ts.foldl seqUpdate s).a.log = s.a.log ++ (us ++ [CEv.upd 1, CEv.stop]) ∧
        lowUpd us) ∧
    ((∀ t ∈ ts, t < s.split) →
      ∃ us, (ts.foldl seqUpdate s).a.log = s.a.log ++ us ∧ lowUpd us) := by
  induction ts with
  | nil =>
    intro s _ _ _ _ _ _
    exact ⟨fun h => absurd h (by simp), fun _ => ⟨[], by simp, fun e he => absurd he (by simp)⟩⟩
  | cons t rest ih =>
    intro s he hl hsp hdone ht1 hsort
    obtain ⟨hband, hsrest⟩ := List.sorted_cons.mp hsort
    by_cases hc : t < s.split
    · obtain ⟨ha, hl1, hs1, he1, hv⟩ :=
        seqUpdate_below s t he hl hc (ne_of_gt hsp) hdone ht1 hsp
      have hdone1 : (seqUpdate s t).a.done = false := by rw [ha]; exact hdone
      have ht11 : (seqUpdate s t).a.times = 1 := by rw [ha]; exact ht1
      have hsp1 : 0 < (seqUpdate s t).split := by rw [hs1]; exact hsp
      have hih := ih (seqUpdate s t) he1 hl1 hsp1 hdone1 ht11 hsrest
      have hlog1 : (seqUpdate s t).a.log = s.a.log ++ [CEv.upd (t / s.split)] := by
        rw [ha]; rfl
      constructor
      · rintro ⟨x, hx, hxge⟩
        have hxr : x ∈ rest := by
          rcases List.mem_cons.mp hx with h | h
          · exact absurd hxge (by rw [h] at *; exact not_le.mpr hc)
          · exact h
        obtain ⟨us, hlog, hlow⟩ := hih.1 ⟨x, hxr, by rw [hs1]; exact hxge⟩
        refine ⟨CEv.upd (t / s.split) :: us, ?_, ?_⟩
        · simp only [List.foldl_cons] at *
          rw [hlog, hlog1]; simp
        · intro e heu
          rcases List.mem_cons.mp heu with h | h
          · exact ⟨t / s.split, hv, h⟩
          · exact hlow e h
      · intro hall
        obtain ⟨us, hlog, hlow⟩ := hih.2 (by
          intro x hx; rw [hs1]; exact hall x (by simp [hx]))
        refine ⟨CEv.upd (t / s.split) :: us, ?_, ?_⟩
        · simp only [List.foldl_cons] at *
          rw [hlog, hlog1]; simp
        · intro e heu
          rcases List.mem_cons.mp heu with h | h
          · exact ⟨t / s.split, hv, h⟩
          · exact hlow e h
    · obtain ⟨ha, hl1, hs1, he1⟩ := seqUpdate_cross0 s t he hl hc
      have hfz := seq_frozen rest (seqUpdate s t) he1 hl1 (by
        intro x hx
        rw [hs1]
        exact not_lt.mpr (le_trans (not_lt.mp hc) (hband x hx)))
      constructor
      · intro _
        refine ⟨[], ?_, fun e heu => absurd heu (by simp)⟩
        simp only [List.foldl_cons] at *
        rw [hfz.1, ha]
        simp [SChild.send]
      · intro hall
        exact absurd (hall t (by simp)) hc

theorem lowUpd_counts (us : List CEv) (h : lowUpd us) :
    us.count CEv.stop = 0 ∧ us.count (CEv.upd 1) = 0 := by
  constructor <;> rw [List.count_eq_zero] <;> intro hmem <;>
    obtain ⟨v, hv, he⟩ := h _ hmem
  · exact CEv.noConfusion he
  · cases he; exact absurd hv (lt_irrefl 1)

/-- C6: driving a two-child Sequence by successive update calls with
nondecreasing sampled times, the first child's completion is observed
exactly once: its log holds exactly one stop and exactly one update(1),
they appear together as the final update(1); stop() pair the first time a
sample reaches or passes the split while a was active, and if the very
first sample is already past the split the child receives the synthetic
startWithTarget; update(1); stop() triple. -/
theorem c6_sequence_boundary_once (da db : ℚ) (hda : 0 < da) (hdb : 0 < db)
    (ts : List ℚ) (hsort : List.Sorted (· ≤ ·) ts) :
    ((ts.foldl seqUpdate (seqStart (mkSeq (freshChild da) (freshChild db)))).a.log.count
        CEv.stop =
      (if ∃ t ∈ ts, (seqStart (mkSeq (freshChild da) (freshChild db))).split ≤ t
       then 1 else 0)) ∧
    ((ts.foldl seqUpdate (seqStart (mkSeq (freshChild da) (freshChild db)))).a.log.count
        (CEv.upd 1) =
      (if ∃ t ∈ ts, (seqStart (mkSeq (freshChild da) (freshChild db))).split ≤ t
       then 1 else 0)) ∧
    ((∃ t ∈ ts, (seqStart (mkSeq (freshChild da) (freshChild db))).split ≤ t) →
      ∃ pre, (ts.foldl seqUpdate (seqStart (mkSeq (freshChild da) (freshChild db)))).a.log =
          pre ++ [CEv.upd 1, CEv.stop] ∧
        pre.count CEv.stop = 0 ∧ pre.count (CEv.upd 1) = 0) ∧
    (∀ t0 rest, ts = t0 :: rest →
      (seqStart (mkSeq (freshChild da) (freshChild db))).split ≤ t0 →
      (ts.foldl seqUpdate (seqStart (mkSeq (freshChild da) (freshChild db)))).a.log =
        [CEv.start, CEv.upd 1, CEv.stop]) := by
  have hsum : da + db ≠ 0 := by positivity
  have hsplit : (seqStart (mkSeq (freshChild da) (freshChild db))).split = da / (da + db) := by
    simp [seqStart, mkSeq, freshChild, hsum]
  have hsp : 0 < (seqStart (mkSeq (freshChild da) (freshChild db))).split := by
    rw [hsplit]; positivity
  have he : (seqStart (mkSeq (freshChild da) (freshChild db))).ease = [] := rfl
  have hl : (seqStart (mkSeq (freshChild da) (freshChild db))).last = -1 := rfl
  have ht1 : (seqStart (mkSeq (freshChild da) (freshChild db))).a.times = 1 := rfl
  have hd0 : (seqStart (mkSeq (freshChild da) (freshChild db))).a.done = false := rfl
  have hlog0 : (seqStart (mkSeq (freshChild da) (freshChild db))).a.log = [] := rfl
  cases ts with
  | nil =>
    refine ⟨?_, ?_, ?_, ?_⟩
    · rw [if_neg (by simp)]; simp [hlog0]
    · rw [if_neg (by simp)]; simp [hlog0]
    · intro h; exact absurd h (by simp)
    · intro t0 rest h; exact absurd h (by simp)
  | cons t0 rest =>
    obtain ⟨hband, hsrest⟩ := List.sorted_cons.mp hsort
    by_cases hc : t0 < (seqStart (mkSeq (freshChild da) (freshChild db))).split
    · obtain ⟨ha, hl1, hs1, he1, hv, hdone1, htimes1⟩ :=
        seqUpdate_first_below (seqStart (mkSeq (freshChild da) (freshChild db))) t0
          he hl hc (ne_of_gt hsp) ht1 hsp
      have hsp1 : 0 < (seqUpdate (seqStart (mkSeq (freshChild da) (freshChild db))) t0).split := by
        rw [hs1]; exact hsp
      have hdone1' : (seqUpdate (seqStart (mkSeq (freshChild da) (freshChild db))) t0).a.done =
          false := by rw [hdone1]; exact hd0
      have hact := seq_active rest
        (seqUpdate (seqStart (mkSeq (freshChild da) (freshChild db))) t0)
        he1 hl1 hsp1 hdone1' htimes1 hsrest
      have hlog1 : (seqUpdate (seqStart (mkSeq (freshChild da) (freshChild db))) t0).a.log =
          [CEv.start, CEv.upd (t0 / (seqStart (mkSeq (freshChild da) (freshChild db))).split)]
          := by rw [ha]; simp [SChild.send, hlog0]
      by_cases hex : ∃ x ∈ rest, (seqStart (mkSeq (freshChild da) (freshChild db))).split ≤ x
      · obtain ⟨us, hlog, hlow⟩ := hact.1 (by
          obtain ⟨x, hx, hxg⟩ := hex
          exact ⟨x, hx, by rw [hs1]; exact hxg⟩)
        obtain ⟨hus, hus1⟩ := lowUpd_counts us hlow
        have hfin : ((t0 :: rest).foldl seqUpdate
            (seqStart (mkSeq (freshChild da) (freshChild db)))).a.log =
            CEv.start ::
              CEv.upd (t0 / (seqStart (mkSeq (freshChild da) (freshChild db))).split) ::
              (us ++ [CEv.upd 1, CEv.stop]) := by
          simp only [List.foldl_cons] at *
          rw [hlog, hlog1]
          simp
        have hcond : ∃ t ∈ t0 :: rest,
            (seqStart (mkSeq (freshChild da) (freshChild db))).split ≤ t := by
          obtain ⟨x, hx, hxg⟩ := hex
          exact ⟨x, by simp [hx], hxg⟩
        refine ⟨?_, ?_, ?_, ?_⟩
        · rw [if_pos hcond, hfin]
          simp [List.count_cons, List.count_append, hus]
        · rw [if_pos hcond, hfin]
          simp [List.count_cons, List.count_append, hus1, ne_of_lt hv]
        · intro _
          refine ⟨CEv.start ::
              CEv.upd (t0 / (seqStart (mkSeq (freshChild da) (freshChild db))).split) :: us,
            ?_, ?_, ?_⟩
          · rw [hfin]; simp
          · simp [List.count_cons, hus]
          · simp [List.count_cons, hus1, ne_of_lt hv]
        · intro t0' rest' heq hge
          rw [List.cons.injEq] at heq
          exact absurd hge (by rw [heq.1] at hc; exact not_le.mpr hc)
      · push_neg at hex
        obtain ⟨us, hlog, hlow⟩ := hact.2 (by
          intro x hx; rw [hs1]; exact hex x hx)
        obtain ⟨hus, hus1⟩ := lowUpd_counts us hlow
        have hfin : ((t0 :: rest).foldl seqUpdate
            (seqStart (mkSeq (freshChild da) (freshChild db)))).a.log =
            CEv.start ::
              CEv.upd (t0 / (seqStart (mkSeq (freshChild da) (freshChild db))).split) :: us := by
          simp only [List.foldl_cons] at *
          rw [hlog, hlog1]
          simp
        have hcond : ¬ ∃ t ∈ t0 :: rest,
            (seqStart (mkSeq (freshChild da) (freshChild db))).split ≤ t := by
          rintro ⟨x, hx, hxg⟩
          rcases List.mem_cons.mp hx with h | h
          · rw [h] at hxg; exact absurd hxg (not_le.mpr hc)
          · exact absurd hxg (not_le.mpr (hex x h))
        refine ⟨?_, ?_, ?_, ?_⟩
        · rw [if_neg hcond, hfin]
          simp [List.count_cons, hus]
        · rw [if_neg hcond, hfin]
          simp [List.count_cons, hus1, ne_of_lt hv]
        · intro h; exact absurd h hcond
        · intro t0' rest' heq hge
          rw [List.cons.injEq] at heq
          exact absurd hge (by rw [heq.1] at hc; exact not_le.mpr hc)
    · obtain ⟨ha, hl1, hs1, he1⟩ :=
        seqUpdate_first_past (seqStart (mkSeq (freshChild da) (freshChild db))) t0 he hl hc
      have hfz := seq_frozen rest
        (seqUpdate (seqStart (mkSeq (freshChild da) (freshChild db))) t0) he1 hl1 (by
          intro x hx
          rw [hs1]
          exact not_lt.mpr (le_trans (not_lt.mp hc) (hband x hx)))
      have hfin : ((t0 :: rest).foldl seqUpdate
          (seqStart (mkSeq (freshChild da) (freshChild db)))).a.log =
          [CEv.start, CEv.upd 1, CEv.stop] := by
        simp only [List.foldl_cons] at *
        rw [hfz.1, ha]
        simp [SChild.send, hlog0]
      have hcond : ∃ t ∈ t0 :: rest,
          (seqStart (mkSeq (freshChild da) (freshChild db))).split ≤ t :=
        ⟨t0, by simp, not_lt.mp hc⟩
      refine ⟨?_, ?_, ?_, ?_⟩
      · rw [if_pos hcond, hfin]; decide
      · rw [if_pos hcond, hfin]
        simp [List.count_cons]
      · intro _
        exact ⟨[CEv.start], by rw [hfin]; rfl, by decide, by simp [List.count_cons]⟩
      · intro t0' rest' heq hge
        exact hfin

theorem c6_sequence_boundary_once_witness :
    0 < (1 : ℚ) ∧ List.Sorted (· ≤ ·) [(1 : ℚ)/4, 3/4] ∧
    ([(1 : ℚ)/4, 3/4].foldl seqUpdate
        (seqStart (mkSeq (freshChild 1) (freshChild 1)))).a.log.count CEv.stop = 1 := by
  have h := (c6_sequence_boundary_once 1 1 (by norm_num) (by norm_num) [(1 : ℚ)/4, 3/4]
    (by norm_num [List.sorted_cons])).1
  rw [if_pos (show ∃ t ∈ [(1 : ℚ)/4, 3/4],
      (seqStart (mkSeq (freshChild 1) (freshChild 1))).split ≤ t from
    ⟨3/4, by norm_num, by norm_num [seqStart, mkSeq, freshChild]⟩)] at h
  exact ⟨by norm_num, by norm_num [List.sorted_cons], h⟩

/-! ## Leaf action reverse (src/Action.ts) -/

/-- A 3-component vector (util.vec3). -/
structure V3 where
  x : ℚ
  y : ℚ
  z : ℚ
deriving DecidableEq

/-- ActionInterval.$initWithDuration: a zero duration is replaced by
FLT_EPSILON. -/
def initDur (d : ℚ) : ℚ := if d = 0 then FLT_EPSILON else d

/-- The leaf interval actions with the state their reverse() reads: the
stored $duration and the class's own fields.  moveTo keeps the MoveBy
delta field it inherits (vec3(0,0,0) from its constructor until
startWithTarget overwrites it); bezierBy/bezierTo keep the $config
control points, none while the field is still unset (BezierTo passes
null to the BezierBy constructor and only fills $config in
startWithTarget). -/
inductive Leaf where
  | rotateTo (duration : ℚ) (dst : V3)
  | rotateBy (duration : ℚ) (angle : V3)
  | moveBy (duration : ℚ) (delta : V3)
  | moveTo (duration : ℚ) (dst : V3) (delta : V3)
  | bezierBy (duration : ℚ) (config : Option (List V3))
  | bezierTo (duration : ℚ) (toConfig : List V3) (config : Option (List V3))
  | scaleTo (duration : ℚ) (endX endY : ℚ)
  | scaleBy (duration : ℚ) (endX endY : ℚ)
deriving DecidableEq

/-- Constructor + factory for each leaf (rotateTo, moveBy, moveTo,
bezierTo, ... functions in Action.ts): every ActionInterval subclass
constructor routes its duration through $initWithDuration. -/
def rotateToF (d : ℚ) (dst : V3) : Leaf := .rotateTo (initDur d) dst

def rotateByF (d : ℚ) (delta : V3) : Leaf := .rotateBy (initDur d) delta

def moveByF (d : ℚ) (delta : V3) : Leaf := .moveBy (initDur d) delta

def moveToF (d : ℚ) (dst : V3) : Leaf := .moveTo (initDur d) dst ⟨0, 0, 0⟩

def bezierByF (d : ℚ) (points : Option (List V3)) : Leaf := .bezierBy (initDur d) points

def bezierToF (d : ℚ) (points : List V3) : Leaf := .bezierTo (initDur d) points none

def scaleToF (d : ℚ) (sx sy : ℚ) : Leaf := .scaleTo (initDur d) sx sy

def scaleByF (d : ℚ) (sx sy : ℚ) : Leaf := .scaleBy (initDur d) sx sy

/-- What a reverse() call produces: the base-class failure path (an
error log plus a null return), a fresh usable action, or a thrown
TypeError (a property read on undefined). -/
inductive RevOutcome where
  | errNull
  | ok (a : Leaf)
  | crash
deriving DecidableEq

/-- BezierBy.reverse: reads $config[1], $config[0], $config[2]; a read
on an unset $config (or a missing element) throws, otherwise it builds
a fresh BezierBy over the mirrored control points. -/
def bezierRev (d : ℚ) (cfg : Option (List V3)) : RevOutcome :=
  match cfg with
  | none => .crash
  | some l =>
    match l.get? 0, l.get? 1, l.get? 2 with
    | some c0, some c1, some c2 =>
        .ok (.bezierBy (initDur d)
          (some [⟨c1.x - c2.x, c1.y - c2.y, c1.z - c2.z⟩,
                 ⟨c0.x - c2.x, c0.y - c2.y, c0.z - c2.z⟩,
                 ⟨-c2.x, -c2.y, -c2.z⟩]))
    | _, _, _ => .crash

/-- Dynamic dispatch of reverse(): RotateTo and ScaleTo inherit
ActionInterval.reverse (log error, return null); RotateBy, MoveBy and
ScaleBy build the negated/reciprocal fresh action; MoveTo inherits
MoveBy.reverse and so returns a fresh MoveBy over its current delta;
BezierTo inherits BezierBy.reverse over its $config.  The duration
passed to each fresh constructor goes through $initWithDuration
again. -/
def Leaf.reverse : Leaf → RevOutcome
  | .rotateTo _ _ => .errNull
  | .scaleTo _ _ _ => .errNull
  | .rotateBy d a => .ok (.rotateBy (initDur d) ⟨-a.x, -a.y, -a.z⟩)
  | .moveBy d delta => .ok (.moveBy (initDur d) ⟨-delta.x, -delta.y, -delta.z⟩)
  | .moveTo d _ delta => .ok (.moveBy (initDur d) ⟨-delta.x, -delta.y, -delta.z⟩)
  | .scaleBy d sx sy => .ok (.scaleBy (initDur d) (1 / sx) (1 / sy))
  | .bezierBy d cfg => bezierRev d cfg
  | .bezierTo d _ cfg => bezierRev d cfg

/-- reverse().reverse(): apply reverse to the action a first reverse
returned, propagating failure. -/
def revTwice (l : Leaf) : RevOutcome :=
  match l.reverse with
  | .ok a => a.reverse
  | r => r

theorem initDur_ne_zero (d : ℚ) : initDur d ≠ 0 := by
  unfold initDur
  by_cases h : d = 0
  · rw [if_pos h]; norm_num [FLT_EPSILON]
  · rw [if_neg h]; exact h

theorem initDur_idem (d : ℚ) : initDur (initDur d) = initDur d := by
  unfold initDur
  by_cases h : d = 0
  · rw [if_pos h, if_neg (by norm_num [FLT_EPSILON])]
  · rw [if_neg h, if_neg h]

/-- C8 counterexample: MoveTo inherits MoveBy.reverse and returns a
usable MoveBy action rather than the base-class null, and an unstarted
BezierTo crashes on the $config read instead of failing cleanly. -/
theorem c8_counterexample :
    (moveToF 1 ⟨1, 2, 3⟩).reverse = RevOutcome.ok (.moveBy 1 ⟨0, 0, 0⟩) ∧
    (moveToF 1 ⟨1, 2, 3⟩).reverse ≠ RevOutcome.errNull ∧
    (bezierToF 1 [⟨1, 0, 0⟩, ⟨2, 0, 0⟩, ⟨3, 0, 0⟩]).reverse = RevOutcome.crash := by
  refine ⟨?_, ?_, rfl⟩
  · show RevOutcome.ok (.moveBy (initDur (initDur 1)) ⟨-0, -0, -0⟩) = _
    norm_num [initDur]
  · intro h
    exact RevOutcome.noConfusion h

/-- C8 amended: reverse() on the four "-to" leaves splits three ways.
RotateTo and ScaleTo hit the base ActionInterval.reverse and yield the
explicit error-plus-null failure; MoveTo inherits MoveBy.reverse and
yields a usable MoveBy over its current delta (the zero vector before
startWithTarget); BezierTo crashes before startWithTarget because
BezierBy.reverse dereferences the still-unset $config, and yields a
usable BezierBy once startWithTarget has filled $config with three
points. -/
theorem c8_to_reverse_trichotomy (d sx sy : ℚ) (dst : V3) (pts : List V3) (c0 c1 c2 : V3) :
    (rotateToF d dst).reverse = RevOutcome.errNull ∧
    (scaleToF d sx sy).reverse = RevOutcome.errNull ∧
    (moveToF d dst).reverse = RevOutcome.ok (.moveBy (initDur d) ⟨0, 0, 0⟩) ∧
    (bezierToF d pts).reverse = RevOutcome.crash ∧
    (Leaf.bezierTo (initDur d) pts (some [c0, c1, c2])).reverse =
      RevOutcome.ok (.bezierBy (initDur d)
        (some [⟨c1.x - c2.x, c1.y - c2.y, c1.z - c2.z⟩,
               ⟨c0.x - c2.x, c0.y - c2.y, c0.z - c2.z⟩,
               ⟨-c2.x, -c2.y, -c2.z⟩])) := by
  refine ⟨rfl, rfl, ?_, rfl, ?_⟩
  · show RevOutcome.ok (.moveBy (initDur (initDur d)) ⟨-0, -0, -0⟩) = _
    rw [initDur_idem]
    norm_num
  · show bezierRev (initDur d) (some [c0, c1, c2]) = _
    simp only [bezierRev, List.get?]
    rw [initDur_idem]

/-- C9: for the delta-based "-by" leaves, reverse().reverse() returns a
usable action with the same duration and the same delta as the
original, hence the same trajectory on any target: the double negation
restores the delta, and re-running $initWithDuration on the already
initialized duration is the identity since the stored duration is
never zero. -/
theorem c9_by_reverse_roundtrip (d : ℚ) (delta : V3) :
    revTwice (moveByF d delta) = RevOutcome.ok (moveByF d delta) ∧
    revTwice (rotateByF d delta) = RevOutcome.ok (rotateByF d delta) := by
  constructor
  · show RevOutcome.ok (.moveBy (initDur (initDur (initDur d)))
      ⟨- -delta.x, - -delta.y, - -delta.z⟩) = _
    rw [initDur_idem, initDur_idem]
    norm_num [moveByF]
  · show RevOutcome.ok (.rotateBy (initDur (initDur (initDur d)))
      ⟨- -delta.x, - -delta.y, - -delta.z⟩) = _
    rw [initDur_idem, initDur_idem]
    norm_num [rotateByF]

end Viber
